import Mathlib

/-!
# ThreadSanitizer utility layer: a verification development

Shallow embedding of

* `StringMatch` (`tsan/ts_util.cc`),
* `ThreadClock` (`trunk/v2/tsan/tsan_clock.h`),
* `Mutex` and `Backoff` (`v2/tsan/tsan_mutex.cc`),
* `user_alloc`, `user_free`, `user_realloc`, `user_alloc_aligned` (`trunk/v2/tsan/tsan_mman.cc`),
* `Report` (`tsan/ts_util.cc`),

followed by the theorems proved about them.
-/

namespace Tsan

/-! ## `StringMatch` (ts_util.cc, lines 300-337) -/

/-- The terminating NUL of a C string. -/
def NUL : Char := Char.ofNat 0

/-- The byte `s.c_str()[i]`: the `i`-th character of `s`, and the terminating NUL at
`i = s.length`.  (The loop never reads further; an index past the terminator also reads NUL
here.) -/
def cstr (s : List Char) (i : Nat) : Char := s.getD i NUL

/-- The local variables of `StringMatch`.  Pointers into `text.c_str()` and
`wildcard.c_str()` are offsets from the start of the string; `c_text_last` is `none` while it
is `NULL`.  `c_wildcard_last` is only read after `c_text_last` has been tested non-null, so
its initial `NULL` is kept as offset `0`. -/
structure SMState where
  c_text : Nat
  c_wildcard : Nat
  c_text_last : Option Nat
  c_wildcard_last : Nat
deriving DecidableEq, Repr

/-- Outcome of one pass through the body of the outer `while`: either the loop goes round
again with new locals, or the function returns. -/
inductive SMStep where
  | next (s : SMState)
  | ret (b : Bool)
deriving DecidableEq, Repr

/-- The star-skipping loops `while (*c_wildcard == '*') ++c_wildcard;` started with the cursor
at offset `i`; the result is the offset the cursor stops at.  The loop at line 309,
`while (*++c_wildcard == '*') {}`, is this one started at `c_wildcard + 1`.  The first argument
bounds the number of iterations; `wildcard.length` always suffices (`skipStars_spec`). -/
def skipStars (wildcard : List Char) : Nat → Nat → Nat
  | 0, i => i
  | fuel + 1, i => if cstr wildcard i = '*' then skipStars wildcard fuel (i + 1) else i

/-- One pass through the body of `while (*c_text) { ... }` (lines 308-328). -/
def StringMatch.body (wildcard text : List Char) (s : SMState) : SMStep :=
  if cstr wildcard s.c_wildcard = '*' then
    let cw := skipStars wildcard wildcard.length (s.c_wildcard + 1)
    if cstr wildcard cw = NUL then
      .ret true
    else
      .next { s with c_wildcard := cw, c_text_last := some s.c_text, c_wildcard_last := cw }
  else if cstr text s.c_text = cstr wildcard s.c_wildcard ∨ cstr wildcard s.c_wildcard = '?' then
    .next { s with c_text := s.c_text + 1, c_wildcard := s.c_wildcard + 1 }
  else
    match s.c_text_last with
    | some tl =>
      .next { s with c_wildcard := s.c_wildcard_last, c_text := tl, c_text_last := some (tl + 1) }
    | none => .ret false

/-- The outer loop and the code after it (lines 307-336), run for at most `fuel` passes;
`none` means the fuel ran out. -/
def StringMatch.loop (wildcard text : List Char) : Nat → SMState → Option Bool
  | 0, _ => none
  | fuel + 1, s =>
    if cstr text s.c_text ≠ NUL then
      match StringMatch.body wildcard text s with
      | .ret b => some b
      | .next s' => StringMatch.loop wildcard text fuel s'
    else
      some (decide (cstr wildcard (skipStars wildcard wildcard.length s.c_wildcard) = NUL))

/-- Locals at function entry (lines 301-306). -/
def StringMatch.init : SMState :=
  { c_text := 0, c_wildcard := 0, c_text_last := none, c_wildcard_last := 0 }

/-- Number of passes that always suffices (see `StringMatch.loop_spec`). -/
def StringMatch.fuel (wildcard text : List Char) : Nat :=
  (wildcard.length + 2) * ((text.length + 2) * (text.length + 1)) + 1

/-- `StringMatch(wildcard, text)`. -/
def StringMatch (wildcard text : List Char) : Option Bool :=
  StringMatch.loop wildcard text (StringMatch.fuel wildcard text) StringMatch.init

/-- Standard glob semantics, as the specification words it: `*` matches any (possibly empty)
sequence of characters, `?` matches exactly one character, every other character matches
only itself. -/
inductive GlobMatches : List Char → List Char → Prop where
  | nil : GlobMatches [] []
  | star (u : List Char) {w t : List Char} :
      GlobMatches w t → GlobMatches ('*' :: w) (u ++ t)
  | any (c : Char) {w t : List Char} :
      GlobMatches w t → GlobMatches ('?' :: w) (c :: t)
  | lit (c : Char) {w t : List Char} :
      c ≠ '*' → c ≠ '?' → GlobMatches w t → GlobMatches (c :: w) (c :: t)

/-- A wildcard character other than `*` matching one text character. -/
def CharMatch (p u : Char) : Prop := p ≠ '*' ∧ (p = '?' ∨ p = u)

/-! ### The loop invariant -/

/-- Loop invariant of the outer `while`.  Before any `*` has been seen the cursors split the
two strings so that the remainders decide the match.  After a `*`, the wildcard is
`A ++ P ++ X` with `A` ending in the last `*` seen, the text is `B ++ U ++ Y`, the star-free
stretch `P` has been matched against `U`, and the whole match is equivalent to matching
`P ++ X` somewhere at or after the end of `B`. -/
inductive StringMatch.Inv (W T : List Char) : SMState → Prop where
  | noStar (A X B Y : List Char) (ct cw : Nat)
      (hW : W = A ++ X) (hT : T = B ++ Y) (hct : ct = B.length) (hcw : cw = A.length)
      (h : GlobMatches W T ↔ GlobMatches X Y) :
      StringMatch.Inv W T ⟨ct, cw, none, 0⟩
  | star (A P X B U Y : List Char) (ct cw tl cwl : Nat)
      (hW : W = A ++ (P ++ X)) (hT : T = B ++ (U ++ Y))
      (hct : ct = B.length + U.length) (hcw : cw = A.length + P.length)
      (hcwl : cwl = A.length)
      (hPU : List.Forall₂ CharMatch P U) (h1 : B.length ≤ tl) (h2 : tl ≤ B.length + 1)
      (h : GlobMatches W T ↔ ∃ k, B.length ≤ k ∧ GlobMatches (P ++ X) (T.drop k)) :
      StringMatch.Inv W T ⟨ct, cw, some tl, cwl⟩

/-- Variant of the outer loop: lexicographic in (wildcard left after the last `*`,
text left after `c_text_last`, text left after `c_text`). -/
def StringMatch.variant (W T : List Char) (s : SMState) : Nat :=
  (W.length + 1 - s.c_wildcard_last) * ((T.length + 2) * (T.length + 1))
    + (T.length + 1 - s.c_text_last.getD 0) * (T.length + 1) + (T.length - s.c_text)

/-- What one pass of the loop body has to establish. -/
def StringMatch.Good (W T : List Char) (s : SMState) : SMStep → Prop
  | .ret b => (b = true ↔ GlobMatches W T)
  | .next s' => StringMatch.Inv W T s' ∧ StringMatch.variant W T s' < StringMatch.variant W T s

/-! ### Instrumentation of the loop of `StringMatch` -/

/-- `strlen(s.c_str())`: the offset of the first NUL of the C string. -/
def clen (s : List Char) : Nat := (s.takeWhile (fun c => decide (c ≠ NUL))).length

/-- The pass through the loop body that starts with the locals `s` takes the rollback branch
(lines 321-325): the loop condition holds and none of the two conditions before
`else if (c_text_last)` does. -/
def StringMatch.rollsBack (wildcard text : List Char) (s : SMState) : Bool :=
  decide (cstr text s.c_text ≠ NUL ∧ cstr wildcard s.c_wildcard ≠ '*' ∧
    ¬ (cstr text s.c_text = cstr wildcard s.c_wildcard ∨ cstr wildcard s.c_wildcard = '?') ∧
    s.c_text_last.isSome = true)

/-- The locals at the head of every pass of the outer loop, in order, starting with `s`. -/
def StringMatch.visited (wildcard text : List Char) : Nat → SMState → List SMState
  | 0, s => [s]
  | fuel + 1, s =>
    if cstr text s.c_text ≠ NUL then
      match StringMatch.body wildcard text s with
      | .ret _ => [s]
      | .next s' => s :: StringMatch.visited wildcard text fuel s'
    else [s]

/-- The offsets at which the rollbacks of a run restart the text cursor (the value `c_text`
receives at line 325), in order. -/
def StringMatch.restarts (wildcard text : List Char) : Nat → SMState → List Nat
  | 0, _ => []
  | fuel + 1, s =>
    if cstr text s.c_text ≠ NUL then
      match StringMatch.body wildcard text s with
      | .ret _ => []
      | .next s' =>
        if StringMatch.rollsBack wildcard text s then
          s'.c_text :: StringMatch.restarts wildcard text fuel s'
        else StringMatch.restarts wildcard text fuel s'
    else []

/-- Bounds on the locals that every pass of the loop keeps. -/
def StringMatch.Bounds (wildcard text : List Char) (s : SMState) : Prop :=
  s.c_text ≤ clen text ∧ s.c_wildcard ≤ clen wildcard ∧ s.c_wildcard_last ≤ s.c_wildcard ∧
  ∀ v, s.c_text_last = some v →
    s.c_wildcard - s.c_wildcard_last ≤ s.c_text ∧
    s.c_text - (s.c_wildcard - s.c_wildcard_last) ≤ v ∧
    v ≤ s.c_text - (s.c_wildcard - s.c_wildcard_last) + 1 ∧
    cstr wildcard s.c_wildcard_last ≠ '*'

/-- No later rollback restarts the text cursor below `bnd`. -/
def StringMatch.Floor (wildcard : List Char) (s : SMState) (bnd : Nat) : Prop :=
  (∀ v, s.c_text_last = some v → bnd ≤ v) ∧
  (bnd ≤ s.c_text ∨ (bnd = s.c_text + 1 ∧ cstr wildcard s.c_wildcard ≠ '*'))

/-! ## `ThreadClock` (tsan_clock.h, lines 41-77)

`kMaxTid` is declared in `tsan_defs.h`; it is a parameter here.  A `DCHECK` that fails aborts
the process, and an access outside `clk_` has no defined result: both end the operation with
a `Fault`. -/

/-- Ways an operation on a `ThreadClock` stops without a result. -/
inductive Fault where
  /-- `DCHECK(tid < kMaxTid)` failed. -/
  | tidCheck
  /-- `DCHECK(v >= clk_[tid])` failed. -/
  | valueCheck
  /-- `clk_[tid]` was evaluated with `tid` outside `[0, kMaxTid)`. -/
  | outOfBounds
deriving DecidableEq, Repr

/-- Number of values of a `u64`. -/
def u64Size : Nat := 2 ^ 64

/-- The data members `int nclk_; u64 clk_[kMaxTid];`. -/
structure ThreadClock (kMaxTid : Nat) where
  nclk_ : Int
  clk_ : Fin kMaxTid → Nat

namespace ThreadClock

variable {kMaxTid : Nat}

/-- The element of `clk_` that the `int` index `tid` designates, if there is one. -/
def slot (kMaxTid : Nat) (tid : Int) : Option (Fin kMaxTid) :=
  if h : 0 ≤ tid ∧ tid < kMaxTid then some ⟨tid.toNat, by omega⟩ else none

/-- `u64 get(int tid) const`. -/
def get (tc : ThreadClock kMaxTid) (tid : Int) : Except Fault Nat :=
  if ¬ tid < kMaxTid then .error .tidCheck
  else match slot kMaxTid tid with
    | none => .error .outOfBounds
    | some i => .ok (tc.clk_ i)

/-- `void set(int tid, u64 v)`. -/
def set (tc : ThreadClock kMaxTid) (tid : Int) (v : Nat) : Except Fault (ThreadClock kMaxTid) :=
  if ¬ tid < kMaxTid then .error .tidCheck
  else match slot kMaxTid tid with
    | none => .error .outOfBounds
    | some i =>
      if ¬ v ≥ tc.clk_ i then .error .valueCheck
      else .ok
        { nclk_ := if tc.nclk_ ≤ tid then tid + 1 else tc.nclk_
          clk_ := Function.update tc.clk_ i v }

/-- `void tick(int tid)`; `clk_[tid]++` is a `u64` increment. -/
def tick (tc : ThreadClock kMaxTid) (tid : Int) : Except Fault (ThreadClock kMaxTid) :=
  if ¬ tid < kMaxTid then .error .tidCheck
  else match slot kMaxTid tid with
    | none => .error .outOfBounds
    | some i => .ok
        { nclk_ := if tc.nclk_ ≤ tid then tid + 1 else tc.nclk_
          clk_ := Function.update tc.clk_ i ((tc.clk_ i + 1) % u64Size) }

/-- `int size() const`. -/
def size (tc : ThreadClock kMaxTid) : Int := tc.nclk_

/-- A call of one of the two mutators. -/
inductive Op where
  | set (tid : Int) (v : Nat)
  | tick (tid : Int)
deriving DecidableEq, Repr

/-- The thread id an operation is called with. -/
def Op.tid : Op → Int
  | .set tid _ => tid
  | .tick tid => tid

/-- Performs one operation. -/
def apply (tc : ThreadClock kMaxTid) : Op → Except Fault (ThreadClock kMaxTid)
  | .set tid v => tc.set tid v
  | .tick tid => tc.tick tid

/-- Performs a sequence of operations, stopping at the first fault. -/
def run (tc : ThreadClock kMaxTid) : List Op → Except Fault (ThreadClock kMaxTid)
  | [] => .ok tc
  | op :: ops =>
    match tc.apply op with
    | .error e => .error e
    | .ok tc' => run tc' ops

/-- One past the highest index passed to `set` or `tick` in the sequence (`0` for the empty
sequence). -/
def onePastHighest : List Op → Int
  | [] => 0
  | op :: ops => max (op.tid + 1) (onePastHighest ops)

/-- Counters at and beyond the logical length are zero (data model of the specification). -/
def ZeroBeyond (tc : ThreadClock kMaxTid) : Prop :=
  ∀ i : Fin kMaxTid, tc.nclk_ ≤ (i : Int) → tc.clk_ i = 0

end ThreadClock

/-- Modelled from the spec: the counters of a `SyncClock`.  The header declares
`int nclk_; Chunk* chunk_;` but `struct Chunk` and the chunk list are defined in
`tsan_clock.cc`; per the specification the clock is a logical vector of counters of recorded
length `n` in which absent slots read as zero, here the function `clk`. -/
structure SyncClock where
  nclk_ : Int
  clk : Nat → Nat

/-- Modelled from the spec: `ThreadClock::release` (defined in `tsan_clock.cc`): pointwise
`sc[i] ← max(sc[i], tc[i])` over the slots below `max(tc.n, sc.n)`, growing `sc` to hold
them. -/
def ThreadClock.release {kMaxTid : Nat} (tc : ThreadClock kMaxTid) (dst : SyncClock) :
    SyncClock :=
  { nclk_ := max dst.nclk_ tc.nclk_
    clk := fun i =>
      if h : i < kMaxTid ∧ (i : Int) < max tc.nclk_ dst.nclk_ then
        max (dst.clk i) (tc.clk_ ⟨i, h.1⟩)
      else dst.clk i }

/-- Modelled from the spec: `ThreadClock::acquire` (defined in `tsan_clock.cc`): pointwise
`tc[i] ← max(tc[i], sc[i])` for `i < max(tc.n, sc.n)`, growing `tc.n` up to `sc.n`; a no-op
when `sc` is empty. -/
def ThreadClock.acquire {kMaxTid : Nat} (tc : ThreadClock kMaxTid) (src : SyncClock) :
    ThreadClock kMaxTid :=
  if src.nclk_ ≤ 0 then tc
  else
    { nclk_ := max tc.nclk_ src.nclk_
      clk_ := fun i =>
        if (i : Int) < max tc.nclk_ src.nclk_ then max (tc.clk_ i) (src.clk i) else tc.clk_ i }

/-! ## `Mutex` and `Backoff` (tsan_mutex.cc)

The state word `state_` is an atomic `uptr`.  Every atomic operation on it is one indivisible
step; a method is a small machine whose steps are its atomic operations, threads interleave
step by step, and every operation acts on the current content of the word.  `uptr` and the atomic primitives are declared in headers that are
not part of the sources at hand (`tsan_defs.h`, `tsan_atomic.h`); they are modelled as the
64-bit unsigned word and the C++11 operations of the same names. -/

/-- Line 21. -/
def kUnlocked : Nat := 0
/-- Line 22. -/
def kWriteLock : Nat := 1
/-- Line 23. -/
def kReadLock : Nat := 2

/-- Number of values of a `uptr` (64-bit). -/
def uptrSize : Nat := 2 ^ 64

/-- `atomic_load(&state_, mo)`. -/
def atomic_load (a : Nat) : Nat := a

/-- `atomic_fetch_add(&state_, v, mo)`: the new content of the word and the returned previous
content. -/
def atomic_fetch_add (a v : Nat) : Nat × Nat := ((a + v) % uptrSize, a)

/-- `atomic_fetch_sub(&state_, v, mo)`: the new content of the word (unsigned subtraction wraps)
and the returned previous content. -/
def atomic_fetch_sub (a v : Nat) : Nat × Nat := ((a + (uptrSize - v % uptrSize)) % uptrSize, a)

/-- `atomic_compare_exchange_strong(&state_, &cmp, xchg, mo)`: the new content of the word and
whether the exchange took place. -/
def atomic_compare_exchange_strong (a cmp xchg : Nat) : Nat × Bool :=
  if a = cmp then (xchg, true) else (a, false)

/-- `atomic_compare_exchange_weak(&state_, &cmp, xchg, mo)`: as the strong form, except that it
may fail although the word equals `cmp`; `spurious` says whether it does so this time. -/
def atomic_compare_exchange_weak (a cmp xchg : Nat) (spurious : Bool) : Nat × Bool :=
  if a = cmp ∧ spurious = false then (xchg, true) else (a, false)

/-- What a call of `Backoff::Do` does besides counting. -/
inductive BackoffAction where
  /-- `proc_yield(cnt)`: active spin of `cnt` pause cycles. -/
  | procYield (cnt : Int)
  /-- `sched_yield()`. -/
  | schedYield
deriving DecidableEq, Repr

/-- Lines 25-41; the only data member is `int iter_`. -/
structure Backoff where
  iter_ : Int
deriving DecidableEq, Repr

namespace Backoff

/-- Line 39. -/
def kActiveSpinIters : Int := 10
/-- Line 40. -/
def kActiveSpinCnt : Int := 20

/-- The value an `int` holds after an arithmetic result `x` (two's-complement wrap-around
into `[-2^31, 2^31)`). -/
def wrapInt (x : Int) : Int := (x + 2 ^ 31) % 2 ^ 32 - 2 ^ 31

/-- The constructor `Backoff() : iter_() {}`. -/
def new : Backoff := { iter_ := 0 }

/-- `bool Do()`: the object afterwards, what the call did, and the returned value. -/
def Do (b : Backoff) : Backoff × BackoffAction × Bool :=
  ({ iter_ := wrapInt (b.iter_ + 1) },
   if b.iter_ < kActiveSpinIters then .procYield kActiveSpinCnt else .schedYield,
   true)

end Backoff

namespace Mutex

/-- Where a thread stands inside `Mutex::Lock` (lines 51-64). -/
inductive LockPc where
  /-- Called; about to execute the strong compare-and-swap of line 53. -/
  | start
  /-- At the head of the `for` of line 56: about to call `backoff.Do()` and load the word. -/
  | spin (backoff : Backoff)
  /-- The load of line 57 returned `kUnlocked`; about to execute the weak compare-and-swap of
  line 59. -/
  | cas (backoff : Backoff)
  /-- Returned. -/
  | done
deriving DecidableEq, Repr

/-- One atomic step of `Mutex::Lock` on the state word: the new state word and where the
thread stands afterwards.  A loop that `backoff.Do()` ended would fall out of the function at
line 64. -/
def Lock.step (pc : LockPc) (spurious : Bool) (state_ : Nat) : Nat × LockPc :=
  match pc with
  | .start =>
    let r := atomic_compare_exchange_strong state_ kUnlocked kWriteLock
    if r.2 then (r.1, .done) else (r.1, .spin Backoff.new)
  | .spin backoff =>
    let d := backoff.Do
    if d.2.2 then
      if atomic_load state_ = kUnlocked then (state_, .cas d.1) else (state_, .spin d.1)
    else (state_, .done)
  | .cas backoff =>
    let r := atomic_compare_exchange_weak state_ kUnlocked kWriteLock spurious
    if r.2 then (r.1, .done) else (r.1, .spin backoff)
  | .done => (state_, .done)

/-- `Mutex::Unlock` (lines 66-70), a single atomic step: the new state word and whether
`DCHECK_NE(prev & kWriteLock, 0)` passes. -/
def Unlock (state_ : Nat) : Nat × Bool :=
  let r := atomic_fetch_sub state_ kWriteLock
  (r.1, decide (r.2 &&& kWriteLock ≠ 0))

/-- Where a thread stands inside `Mutex::ReadLock` (lines 72-81). -/
inductive ReadLockPc where
  /-- Called; about to execute the `atomic_fetch_add` of line 73. -/
  | start
  /-- At the head of the `for` of line 76: about to call `backoff.Do()` and load the word. -/
  | spin (backoff : Backoff)
  /-- Returned. -/
  | done
deriving DecidableEq, Repr

/-- One atomic step of `Mutex::ReadLock` on the state word. -/
def ReadLock.step (pc : ReadLockPc) (state_ : Nat) : Nat × ReadLockPc :=
  match pc with
  | .start =>
    let r := atomic_fetch_add state_ kReadLock
    if r.2 &&& kWriteLock = 0 then (r.1, .done) else (r.1, .spin Backoff.new)
  | .spin backoff =>
    let d := backoff.Do
    if d.2.2 then
      let prev := atomic_load state_
      if prev &&& kWriteLock = 0 then (state_, .done) else (state_, .spin d.1)
    else (state_, .done)
  | .done => (state_, .done)

/-- `Mutex::ReadUnlock` (lines 83-88), a single atomic step: the new state word and whether
both `DCHECK_EQ(prev & kWriteLock, 0)` and `DCHECK_GT(prev & ~kWriteLock, 0)` pass. -/
def ReadUnlock (state_ : Nat) : Nat × Bool :=
  let r := atomic_fetch_sub state_ kReadLock
  (r.1, decide (r.2 &&& kWriteLock = 0) && decide (r.2 &&& (uptrSize - 1 - kWriteLock) > 0))

/-- What a thread is doing with the mutex. -/
inductive Pc where
  /-- Outside every method and holding nothing. -/
  | idle
  /-- Inside `Lock`; `inLock .done` has returned from `Lock` and not yet called `Unlock`. -/
  | inLock (pc : LockPc)
  /-- Inside `ReadLock`; `inReadLock .done` has returned from `ReadLock` and not yet called
  `ReadUnlock`. -/
  | inReadLock (pc : ReadLockPc)
  /-- A `DCHECK` of `Unlock` or `ReadUnlock` failed. -/
  | fault
deriving DecidableEq, Repr

/-- Which method an idle thread calls next. -/
inductive Call where
  | lock
  | readLock
deriving DecidableEq, Repr

/-- The choices the environment makes for one step: the method an idle thread enters, and
whether a weak compare-and-swap fails spuriously. -/
structure Choice where
  call : Call
  spurious : Bool
deriving DecidableEq, Repr

/-- One atomic step of one thread.  An idle thread enters `Lock` or `ReadLock` and executes its
first atomic operation; a thread inside a method executes the next one; a thread that has
returned from `Lock` calls `Unlock`, one that has returned from `ReadLock` calls `ReadUnlock`
(no other thread ever calls them). -/
def threadStep (c : Choice) (state_ : Nat) : Pc → Nat × Pc
  | .idle =>
    match c.call with
    | .lock => let r := Lock.step .start c.spurious state_; (r.1, .inLock r.2)
    | .readLock => let r := ReadLock.step .start state_; (r.1, .inReadLock r.2)
  | .inLock .done => let r := Unlock state_; (r.1, if r.2 then .idle else .fault)
  | .inLock pc => let r := Lock.step pc c.spurious state_; (r.1, .inLock r.2)
  | .inReadLock .done => let r := ReadUnlock state_; (r.1, if r.2 then .idle else .fault)
  | .inReadLock pc => let r := ReadLock.step pc state_; (r.1, .inReadLock r.2)
  | .fault => (state_, .fault)

/-- A mutex together with the threads that use it. -/
structure Sys where
  state_ : Nat
  threads : List Pc
deriving DecidableEq, Repr

/-- The constructor `Mutex::Mutex()` (line 44) stores `kUnlocked`; `n` threads, all idle. -/
def Sys.init (n : Nat) : Sys := { state_ := kUnlocked, threads := List.replicate n .idle }

/-- Thread `t` takes one step; `none` if there is no such thread. -/
def Sys.step (s : Sys) (t : Nat) (c : Choice) : Option Sys :=
  match s.threads[t]? with
  | none => none
  | some pc =>
    let r := threadStep c s.state_ pc
    some { state_ := r.1, threads := s.threads.set t r.2 }

/-- Runs a schedule: a list of (thread, choice) pairs, one per step. -/
def Sys.run (s : Sys) : List (Nat × Choice) → Option Sys
  | [] => some s
  | (t, c) :: rest =>
    match s.step t c with
    | none => none
    | some s' => Sys.run s' rest

/-- The thread holds the write lock. -/
def Pc.isWriter : Pc → Bool
  | .inLock .done => true
  | _ => false

/-- The thread has executed the `atomic_fetch_add` of `ReadLock` and not yet the
`atomic_fetch_sub` of `ReadUnlock`: it holds the read lock or waits in the loop of
`ReadLock`. -/
def Pc.isCounted : Pc → Bool
  | .inReadLock .start => false
  | .inReadLock _ => true
  | _ => false

/-- The thread holds the read lock. -/
def Pc.isReader : Pc → Bool
  | .inReadLock .done => true
  | _ => false

/-- Number of threads holding the write lock. -/
def Sys.writers (s : Sys) : Nat := s.threads.countP Pc.isWriter

/-- Number of threads counted in the state word as readers. -/
def Sys.counted (s : Sys) : Nat := s.threads.countP Pc.isCounted

/-- Number of threads holding the read lock. -/
def Sys.readers (s : Sys) : Nat := s.threads.countP Pc.isReader

end Mutex

/-- Invariant of the states reachable from `Sys.init n`. -/
structure Mutex.Sys.Inv (n : Nat) (s : Mutex.Sys) : Prop where
  length_eq : s.threads.length = n
  word_eq : s.state_ = s.writers + 2 * s.counted
  writers_le : s.writers ≤ 1
  excl : s.writers = 0 ∨ s.readers = 0
  no_fault : Mutex.Pc.fault ∉ s.threads

/-! ### The destructor and the scoped wrappers (tsan_mutex.cc, lines 47-49 and 90-106) -/

/-- `Mutex::~Mutex()` (lines 47-49): whether
`CHECK_EQ(atomic_load(&state_, memory_order_relaxed), kUnlocked)` passes. -/
def Mutex.destroy (state_ : Nat) : Bool := decide (atomic_load state_ = kUnlocked)

/-- One atomic step of the constructor `Lock::Lock(Mutex *m)` (lines 90-93), whose body is
`m_->Lock()`. -/
def Lock.ctor (pc : Mutex.LockPc) (spurious : Bool) (state_ : Nat) : Nat × Mutex.LockPc :=
  Mutex.Lock.step pc spurious state_

/-- The destructor `Lock::~Lock()` (lines 95-97), whose body is `m_->Unlock()`. -/
def Lock.dtor (state_ : Nat) : Nat × Bool := Mutex.Unlock state_

/-- One atomic step of the constructor `ReadLock::ReadLock(Mutex *m)` (lines 99-102), whose
body is `m_->ReadLock()`. -/
def ReadLock.ctor (pc : Mutex.ReadLockPc) (state_ : Nat) : Nat × Mutex.ReadLockPc :=
  Mutex.ReadLock.step pc state_

/-- The destructor `ReadLock::~ReadLock()` (lines 104-106), whose body is
`m_->ReadUnlock()`. -/
def ReadLock.dtor (state_ : Nat) : Nat × Bool := Mutex.ReadUnlock state_

namespace Mutex

/-- One atomic step in the life of a scoped object.  A `Pc` here describes one place of the
program where a scoped `Lock` or `ReadLock` may live: `.idle` holds no object (none was
constructed yet, or the last one has been destroyed), `.inLock pc` with `pc` other than
`.done` is inside the constructor of a scoped `Lock`, `.inLock .done` holds a constructed
scoped `Lock`, whose only step is its destructor; likewise for `ReadLock`. -/
def scopedStep (c : Choice) (state_ : Nat) : Pc → Nat × Pc
  | .idle =>
    match c.call with
    | .lock => let r := Tsan.Lock.ctor .start c.spurious state_; (r.1, .inLock r.2)
    | .readLock => let r := Tsan.ReadLock.ctor .start state_; (r.1, .inReadLock r.2)
  | .inLock .done => let r := Tsan.Lock.dtor state_; (r.1, if r.2 then .idle else .fault)
  | .inLock pc => let r := Tsan.Lock.ctor pc c.spurious state_; (r.1, .inLock r.2)
  | .inReadLock .done =>
    let r := Tsan.ReadLock.dtor state_; (r.1, if r.2 then .idle else .fault)
  | .inReadLock pc => let r := Tsan.ReadLock.ctor pc state_; (r.1, .inReadLock r.2)
  | .fault => (state_, .fault)

/-- Place `t` takes one step of `scopedStep`; `none` if there is no such place. -/
def Sys.scopedStepAt (s : Sys) (t : Nat) (c : Choice) : Option Sys :=
  match s.threads[t]? with
  | none => none
  | some pc =>
    let r := scopedStep c s.state_ pc
    some { state_ := r.1, threads := s.threads.set t r.2 }

/-- Runs a schedule of constructor and destructor steps of scoped objects. -/
def Sys.scopedRun (s : Sys) : List (Nat × Choice) → Option Sys
  | [] => some s
  | (t, c) :: rest =>
    match s.scopedStepAt t c with
    | none => none
    | some s' => Sys.scopedRun s' rest

end Mutex

/-- The `Backoff` object after `k` calls of `Do`. -/
def Backoff.after : Nat → Backoff → Backoff
  | 0, b => b
  | k + 1, b => Backoff.after k b.Do.1

/-! ## User memory (tsan_mman.cc)

`Alloc`, `Free`, `AllocBlock`, `internal_memcpy`, `struct MBlock`, `CTX()` and the shadow
functions `MemoryResetRange` / `MemoryRangeFreed` are declared in headers that are not part of
the sources at hand.  The allocator is modelled as a table of live allocations, keyed by the
address `Alloc` returned; what `Alloc` returns (address and initial content) is an argument of
every function that may call it.  Sizes and the `uptr` arithmetic on them are 64-bit. -/

/-- Ways a function of tsan_mman.cc stops without a result. -/
inductive MFault where
  /-- A `CHECK` failed. -/
  | check
  /-- The `DCHECK_LE` of `user_alloc_aligned` failed. -/
  | dcheck
  /-- A store or a copy went outside the allocation it addresses. -/
  | outOfBounds
  /-- `AllocBlock` knows no allocation for the pointer. -/
  | noBlock
deriving DecidableEq, Repr

/-- The fields of `ThreadState` that tsan_mman.cc reads. -/
structure ThreadState where
  in_rtl : Int
  tid : Int
deriving DecidableEq, Repr

/-- Modelled from the spec: `struct MBlock` (tsan_mman.h), the header in front of every user
block: its field `size`, followed in memory by the user bytes, `data i` being the byte at
offset `i` after the header. -/
structure MBlock where
  size : Nat
  data : Nat → Nat

/-- A call into the shadow memory, with its arguments `pc`, address and size. -/
inductive ShadowCall where
  | MemoryResetRange (pc addr sz : Nat)
  | MemoryRangeFreed (pc addr sz : Nat)
deriving DecidableEq, Repr

/-- The memory the functions act on: the live allocations by the address of their header,
and the shadow calls made so far. -/
structure Mem where
  blocks : Nat → Option MBlock
  shadow : List ShadowCall

/-- What the functions take from their surroundings: `sizeof(MBlock)` and the value of
`CTX() && CTX()->initialized`. -/
structure MmanEnv where
  sizeofMBlock : Nat
  initialized : Bool
deriving DecidableEq, Repr

/-- `void *user_alloc(ThreadState *thr, uptr pc, uptr sz)` (lines 19-29).  `a` is the address
`Alloc` returns and `fill` the content it happens to hold.  `Alloc` is asked for
`sz + sizeof(MBlock)` bytes in `uptr` arithmetic; if that is less than a header, the store
`b->size = sz` is outside the allocation. -/
def user_alloc (env : MmanEnv) (thr : ThreadState) (pc sz : Nat) (a : Nat) (fill : Nat → Nat)
    (mem : Mem) : Except MFault (Nat × Mem) :=
  if ¬ thr.in_rtl > 0 then .error .check
  else
    let n := (sz + env.sizeofMBlock) % uptrSize
    if n < env.sizeofMBlock then .error .outOfBounds
    else
      let p := a + env.sizeofMBlock
      .ok (p,
        { blocks := Function.update mem.blocks a (some { size := sz, data := fill })
          shadow :=
            if env.initialized then mem.shadow ++ [.MemoryResetRange pc p sz]
            else mem.shadow })

/-- `void *user_alloc_aligned(ThreadState *thr, uptr pc, uptr sz, uptr align)` (lines 61-67),
all arithmetic in `uptr`. -/
def user_alloc_aligned (env : MmanEnv) (thr : ThreadState) (pc sz align : Nat) (a : Nat)
    (fill : Nat → Nat) (mem : Mem) : Except MFault (Nat × Mem) :=
  if ¬ thr.in_rtl > 0 then .error .check
  else
    match user_alloc env thr pc ((sz + align) % uptrSize) a fill mem with
    | .error e => .error e
    | .ok (p, mem1) =>
      let pa := ((p + align + (uptrSize - 1)) % uptrSize) &&&
        (uptrSize - 1 - (align + (uptrSize - 1)) % uptrSize)
      if ¬ (pa + sz) % uptrSize ≤ (p + sz + align) % uptrSize then .error .dcheck
      else .ok (pa, mem1)

/-! ## `Report` (ts_util.cc, lines 145-183)

The formatting itself (`vsnprintf`, `snprintf`) is library code: the argument `m` of the model
is the formatted message, of which `vsnprintf` returns the length and which it leaves in
`buff` once `buff` is large enough. -/

/-- The newline character. -/
def NL : Char := Char.ofNat 10

/-- The decimal digits of `n`, most significant first; the first argument bounds the number of
digits. -/
def decimalDigits : Nat → Nat → List Char
  | 0, _ => []
  | fuel + 1, n =>
    if n < 10 then [Char.ofNat (48 + n)]
    else decimalDigits fuel (n / 10) ++ [Char.ofNat (48 + n % 10)]

/-- The text the C library's `snprintf` produces for the conversion `%d`: a minus sign for a
negative number, then the decimal digits. -/
def formatInt (n : Int) : List Char :=
  if n < 0 then '-' :: decimalDigits (n.natAbs + 1) n.natAbs
  else decimalDigits (n.natAbs + 1) n.natAbs

/-- Lines 167-168: `char pid_buff[100]; snprintf(pid_buff, sizeof(pid_buff), "==%d== ", getpid())`;
`snprintf` stores at most 99 characters. -/
def Report.pid_buff (pid : Int) : List Char :=
  (['=', '='] ++ formatInt pid ++ ['=', '=', ' ']).take 99

/-- Lines 148-165: the growth of `buff_size` until `vsnprintf`, which returns `ret`, reports that
the message fits; `none` when `buff_size *= 2` leaves the range of `int`. -/
def Report.grow (ret : Int) : Nat → Int → Option Int
  | 0, _ => none
  | fuel + 1, buff_size =>
    if ret < buff_size then some buff_size
    else if buff_size * 2 > 2 ^ 31 - 1 then none
    else Report.grow ret fuel (buff_size * 2)

/-- Lines 170-178: the loop `for (int i = 0; i < len; i++)`, entered with the current `i`,
`last_was_new_line` and `res`; the first argument bounds the number of passes. -/
def Report.loop (pid_buff buff : List Char) (len : Int) :
    Nat → Int → Bool → List Char → List Char
  | 0, _, _, res => res
  | fuel + 1, i, last_was_new_line, res =>
    if i < len then
      let res1 := if last_was_new_line then res ++ pid_buff else res
      Report.loop pid_buff buff len fuel (i + 1) (decide (cstr buff i.toNat = NL))
        (res1 ++ [cstr buff i.toNat])
    else res

/-- What `Printf("%s", s.c_str())` (line 182) writes.  `Printf` (lines 130-143, the branch
without `TS_VALGRIND`) hands the string to `vfprintf(G_out, "%s", ...)`, which writes the
characters of `s` before its first NUL and returns their number as an `int`: the result is
`none` when that number exceeds `INT_MAX`, where `vfprintf` fails. -/
def Printf_s (s : List Char) : Option (List Char) :=
  if ((s.takeWhile fun c => decide (c ≠ NUL)).length : Int) < 2 ^ 31 then
    some (s.takeWhile fun c => decide (c ≠ NUL))
  else none

/-- `Report` applied to arguments that format to the message `m`, in the process `pid`: the
text printed, or `none` when there is no defined output (`vsnprintf` cannot return the length
of `m` as an `int`, `buff_size` overflows, or `vfprintf` cannot return the number of characters
of the result as an `int`). -/
def Report (pid : Int) (m : List Char) : Option (List Char) :=
  if ¬ (m.length : Int) < 2 ^ 31 then none
  else
    match Report.grow m.length 32 (1024 * 16) with
    | none => none
    | some _ =>
      let len : Int := clen m
      Printf_s (Report.loop (Report.pid_buff pid) m len m.length 0 true [])

/-- The text the claim describes: the message with the prefix `p` inserted before its first
character and before every character that directly follows a newline, nothing else added or
removed. -/
def prefixLines (p m : List Char) : List Char :=
  ((List.range m.length).map fun i =>
    (if i = 0 ∨ cstr m (i - 1) = NL then p else []) ++ [cstr m i]).flatten

/-! # Theorems -/

/-! ### Facts about the glob semantics -/

theorem GlobMatches.nil_iff (t : List Char) : GlobMatches [] t ↔ t = [] := by
  constructor
  · intro h
    cases h
    rfl
  · rintro rfl
    exact GlobMatches.nil

theorem GlobMatches.star_iff (w t : List Char) :
    GlobMatches ('*' :: w) t ↔ ∃ k, GlobMatches w (t.drop k) := by
  constructor
  · intro h
    cases h with
    | star u h0 => exact ⟨u.length, by simpa using h0⟩
    | lit c h1 _ _ => exact absurd rfl h1
  · rintro ⟨k, hk⟩
    have := GlobMatches.star (t.take k) hk
    simpa using this

theorem GlobMatches.cons_iff (c : Char) (w t : List Char) (hc : c ≠ '*') :
    GlobMatches (c :: w) t ↔ ∃ d t', t = d :: t' ∧ (c = '?' ∨ c = d) ∧ GlobMatches w t' := by
  constructor
  · intro h
    cases h with
    | star u h0 => exact absurd rfl hc
    | any d h0 => exact ⟨d, _, rfl, Or.inl rfl, h0⟩
    | lit _ _ _ h0 => exact ⟨c, _, rfl, Or.inr rfl, h0⟩
  · rintro ⟨d, t', rfl, hcd, h0⟩
    by_cases hq : c = '?'
    · subst hq
      exact GlobMatches.any d h0
    · rcases hcd with hcd | hcd
      · exact absurd hcd hq
      · subst hcd
        exact GlobMatches.lit c hc hq h0

theorem GlobMatches.seg_iff {P U : List Char} (h : List.Forall₂ CharMatch P U)
    (X Y : List Char) : GlobMatches (P ++ X) (U ++ Y) ↔ GlobMatches X Y := by
  induction h with
  | nil => simp
  | cons hpu _ ih =>
    rw [List.cons_append, List.cons_append, GlobMatches.cons_iff _ _ _ hpu.1]
    constructor
    · rintro ⟨d, t', heq, _, h0⟩
      obtain ⟨_, rfl⟩ := List.cons.inj heq
      exact ih.mp h0
    · intro h0
      exact ⟨_, _, rfl, hpu.2, ih.mpr h0⟩

theorem GlobMatches.seg_drop {P : List Char} (hP : ∀ p ∈ P, p ≠ '*') (X : List Char) :
    ∀ V : List Char, GlobMatches (P ++ X) V →
      P.length ≤ V.length ∧ GlobMatches X (V.drop P.length) := by
  induction P with
  | nil => intro V h; simpa using h
  | cons p P ih =>
    intro V h
    rw [List.cons_append, GlobMatches.cons_iff _ _ _ (hP p (List.mem_cons_self _ _))] at h
    obtain ⟨d, t', rfl, _, h0⟩ := h
    have := ih (fun q hq => hP q (List.mem_cons_of_mem _ hq)) t' h0
    simpa using this

theorem CharMatch.forall_ne_star {P U : List Char} (h : List.Forall₂ CharMatch P U) :
    ∀ p ∈ P, p ≠ '*' := by
  induction h with
  | nil => simp
  | cons hpu _ ih =>
    intro p hp
    rcases List.mem_cons.mp hp with rfl | hp
    · exact hpu.1
    · exact ih p hp

/-- Greedy step: once a star-free stretch `P` of the wildcard has been matched against the
text at the earliest admissible place, a following `*` may start right after it. -/
theorem GlobMatches.greedy {P U : List Char} (h : List.Forall₂ CharMatch P U)
    (B Y X : List Char) :
    (∃ k, B.length ≤ k ∧ GlobMatches (P ++ '*' :: X) ((B ++ (U ++ Y)).drop k)) ↔
      GlobMatches ('*' :: X) Y := by
  constructor
  · rintro ⟨k, hk, hm⟩
    obtain ⟨_, h1⟩ := GlobMatches.seg_drop (CharMatch.forall_ne_star h) _ _ hm
    rw [GlobMatches.star_iff] at h1 ⊢
    obtain ⟨j, hj⟩ := h1
    refine ⟨k - B.length + j, ?_⟩
    have hlen : U.length = P.length := (List.Forall₂.length_eq h).symm
    have e : (List.drop k (B ++ (U ++ Y))).drop P.length = Y.drop (k - B.length) := by
      rw [List.drop_drop, List.drop_append_eq_append_drop, List.drop_eq_nil_of_le (by omega),
        List.nil_append, List.drop_append_eq_append_drop, List.drop_eq_nil_of_le (by omega),
        List.nil_append]
      congr 1
      omega
    rw [e, List.drop_drop] at hj
    exact hj
  · intro hm
    refine ⟨B.length, le_refl _, ?_⟩
    rw [List.drop_left]
    exact (GlobMatches.seg_iff h _ _).mpr hm

theorem GlobMatches.star_star (X V : List Char) :
    GlobMatches ('*' :: '*' :: X) V ↔ GlobMatches ('*' :: X) V := by
  constructor
  · intro h
    obtain ⟨k, hk⟩ := (GlobMatches.star_iff _ _).mp h
    obtain ⟨j, hj⟩ := (GlobMatches.star_iff _ _).mp hk
    rw [List.drop_drop] at hj
    exact (GlobMatches.star_iff _ _).mpr ⟨_, hj⟩
  · intro h
    exact (GlobMatches.star_iff _ _).mpr ⟨0, by simpa using h⟩

theorem GlobMatches.stars_iff {S : List Char} (hS : ∀ c ∈ S, c = '*') (hne : S ≠ [])
    (X : List Char) : ∀ V, GlobMatches (S ++ X) V ↔ GlobMatches ('*' :: X) V := by
  induction S with
  | nil => exact absurd rfl hne
  | cons c S ih =>
    have hc : c = '*' := hS c (List.mem_cons_self _ _)
    subst hc
    intro V
    by_cases hS0 : S = []
    · subst hS0
      simp
    · have ih' := ih (fun d hd => hS d (List.mem_cons_of_mem _ hd)) hS0
      rw [List.cons_append, GlobMatches.star_iff]
      constructor
      · rintro ⟨k, hk⟩
        obtain ⟨j, hj⟩ := (GlobMatches.star_iff _ _).mp ((ih' _).mp hk)
        rw [List.drop_drop] at hj
        exact (GlobMatches.star_iff _ _).mpr ⟨_, hj⟩
      · intro h
        exact ⟨0, by simpa using (ih' V).mpr h⟩

theorem GlobMatches.seg_congr (P : List Char) {Z Z' : List Char}
    (h : ∀ V, GlobMatches Z V ↔ GlobMatches Z' V) :
    ∀ V, GlobMatches (P ++ Z) V ↔ GlobMatches (P ++ Z') V := by
  induction P with
  | nil => simpa using h
  | cons p P ih =>
    intro V
    by_cases hp : p = '*'
    · subst hp
      simp only [List.cons_append, GlobMatches.star_iff]
      exact exists_congr fun k => ih _
    · simp only [List.cons_append, GlobMatches.cons_iff _ _ _ hp]
      exact exists_congr fun d => exists_congr fun t' =>
        and_congr_right fun _ => and_congr_right fun _ => ih _

theorem GlobMatches.nil_text_iff {S : List Char} (hS : ∀ c ∈ S, c = '*') (X : List Char)
    (hX : X.headD NUL ≠ '*') : GlobMatches (S ++ X) [] ↔ X = [] := by
  have key : GlobMatches X [] ↔ X = [] := by
    cases X with
    | nil => simp [GlobMatches.nil]
    | cons c X =>
      have hc : c ≠ '*' := by simpa using hX
      rw [GlobMatches.cons_iff _ _ _ hc]
      simp
  by_cases hS0 : S = []
  · subst hS0
    simpa using key
  · rw [GlobMatches.stars_iff hS hS0, GlobMatches.star_iff]
    simpa using key

/-! ### Reading the C strings -/

theorem cstr_append_length (A X : List Char) : cstr (A ++ X) A.length = X.headD NUL := by
  induction A with
  | nil => cases X <;> simp [cstr]
  | cons a A ih => simpa [cstr] using ih

theorem cstr_at {W A X : List Char} {i : Nat} (hW : W = A ++ X) (hi : i = A.length) :
    cstr W i = X.headD NUL := by
  subst hW hi
  exact cstr_append_length A X

theorem NUL_ne_star : NUL ≠ '*' := by decide

theorem NUL_ne_question : NUL ≠ '?' := by decide

theorem headD_eq_NUL_iff {W A X : List Char} (hw : NUL ∉ W) (hW : W = A ++ X) :
    X.headD NUL = NUL ↔ X = [] := by
  cases X with
  | nil => simp
  | cons c X =>
    have : c ∈ W := by subst hW; simp
    have hc : c ≠ NUL := fun e => hw (e ▸ this)
    simpa using hc

theorem exists_stars_split (X : List Char) :
    ∃ S X', X = S ++ X' ∧ (∀ c ∈ S, c = '*') ∧ X'.headD NUL ≠ '*' := by
  induction X with
  | nil => exact ⟨[], [], rfl, by simp, by simpa using NUL_ne_star⟩
  | cons c X ih =>
    by_cases hc : c = '*'
    · obtain ⟨S, X', rfl, hS, hX'⟩ := ih
      refine ⟨c :: S, X', rfl, ?_, hX'⟩
      intro d hd
      rcases List.mem_cons.mp hd with rfl | hd
      · exact hc
      · exact hS d hd
    · exact ⟨[], c :: X, rfl, by simp, by simpa using hc⟩

theorem skipStars_spec (S X : List Char) (hS : ∀ c ∈ S, c = '*') (hX : X.headD NUL ≠ '*') :
    ∀ (A : List Char) (fuel : Nat), S.length ≤ fuel →
      skipStars (A ++ (S ++ X)) fuel A.length = A.length + S.length := by
  induction S with
  | nil =>
    intro A fuel _
    cases fuel with
    | zero => rfl
    | succ f =>
      have : cstr (A ++ X) A.length ≠ '*' := by
        rw [cstr_append_length]; exact hX
      simp [skipStars, this]
  | cons c S ih =>
    intro A fuel hf
    have hc : c = '*' := hS c (List.mem_cons_self _ _)
    subst hc
    cases fuel with
    | zero => simp at hf
    | succ f =>
      have h1 : cstr (A ++ ('*' :: S ++ X)) A.length = '*' := by
        rw [cstr_append_length]; rfl
      have h2 := ih (fun d hd => hS d (List.mem_cons_of_mem _ hd)) (A ++ ['*']) f
        (by simpa using hf)
      simp only [List.append_assoc, List.singleton_append, List.length_append,
        List.length_singleton] at h2
      simp only [skipStars, h1, if_true, List.length_cons]
      rw [List.cons_append, h2]
      omega

theorem StringMatch.variant_lt_of_fst (n a a' b b' c c' : Nat) (ha : a' < a)
    (hb : b' ≤ n + 1) (hc : c' ≤ n) :
    a' * ((n + 2) * (n + 1)) + b' * (n + 1) + c' < a * ((n + 2) * (n + 1)) + b * (n + 1) + c := by
  have h1 : (a' + 1) * ((n + 2) * (n + 1)) ≤ a * ((n + 2) * (n + 1)) :=
    Nat.mul_le_mul_right _ ha
  have h2 : b' * (n + 1) ≤ (n + 1) * (n + 1) := Nat.mul_le_mul_right _ hb
  nlinarith

theorem StringMatch.variant_lt_of_snd (n a b b' c c' : Nat) (hb : b' < b) (hc : c' ≤ n) :
    a * ((n + 2) * (n + 1)) + b' * (n + 1) + c' < a * ((n + 2) * (n + 1)) + b * (n + 1) + c := by
  have h2 : (b' + 1) * (n + 1) ≤ b * (n + 1) := Nat.mul_le_mul_right _ hb
  nlinarith

theorem StringMatch.body_star {W T : List Char} (hw : NUL ∉ W) {s : SMState}
    {A S X' B Y : List Char} (hW : W = A ++ ('*' :: S ++ X')) (hS : ∀ c ∈ S, c = '*')
    (hX' : X'.headD NUL ≠ '*') (hT : T = B ++ Y)
    (hct : s.c_text = B.length) (hcw : s.c_wildcard = A.length)
    (hcwl : s.c_wildcard_last ≤ A.length)
    (hG : GlobMatches W T ↔ GlobMatches ('*' :: X') Y) :
    StringMatch.Good W T s (StringMatch.body W T s) := by
  have h0 : cstr W s.c_wildcard = '*' := by
    rw [cstr_at hW hcw]; rfl
  have hW1 : W = (A ++ ['*']) ++ (S ++ X') := by simp [hW]
  have hW2 : W = (A ++ '*' :: S) ++ X' := by simp [hW]
  have hlen : W.length = A.length + 1 + S.length + X'.length := by
    rw [hW]; simp; omega
  have hskip : skipStars W W.length (s.c_wildcard + 1) = A.length + 1 + S.length := by
    have := skipStars_spec S X' hS hX' (A ++ ['*']) W.length (by omega)
    rw [← hW1] at this
    simpa [hcw] using this
  have hread : cstr W (A.length + 1 + S.length) = X'.headD NUL :=
    cstr_at hW2 (by simp; omega)
  unfold StringMatch.body
  simp only [h0, if_true, hskip, hread]
  by_cases hnil : X' = []
  · subst hnil
    simp only [List.headD_nil, if_true, StringMatch.Good, true_iff]
    rw [hG, GlobMatches.star_iff]
    exact ⟨Y.length, by simpa using GlobMatches.nil⟩
  · have hne : X'.headD NUL ≠ NUL := fun e => hnil ((headD_eq_NUL_iff hw hW2).mp e)
    simp only [hne, if_false, StringMatch.Good]
    constructor
    · refine StringMatch.Inv.star (A ++ '*' :: S) [] X' B [] Y _ _ _ _ hW2 (by simpa using hT)
        (by simpa using hct) (by simp; omega) (by simp; omega) List.Forall₂.nil
        (by omega) (by omega) ?_
      rw [hG, GlobMatches.star_iff]
      constructor
      · rintro ⟨j, hj⟩
        refine ⟨B.length + j, by omega, ?_⟩
        rw [hT, List.nil_append, List.drop_append_eq_append_drop,
          List.drop_eq_nil_of_le (by omega), List.nil_append]
        simpa using hj
      · rintro ⟨k, hk, hm⟩
        refine ⟨k - B.length, ?_⟩
        rw [hT, List.nil_append, List.drop_append_eq_append_drop,
          List.drop_eq_nil_of_le (by omega), List.nil_append] at hm
        exact hm
    · unfold StringMatch.variant
      apply StringMatch.variant_lt_of_fst
      · simp only
        omega
      · simp only [Option.getD_some]
        omega
      · simp only
        omega

theorem StringMatch.tail_spec {W : List Char} (hw : NUL ∉ W) {A X : List Char} {cw : Nat}
    (hW : W = A ++ X) (hcw : cw = A.length) :
    cstr W (skipStars W W.length cw) = NUL ↔ GlobMatches X [] := by
  obtain ⟨S, X', rfl, hS, hX'⟩ := exists_stars_split X
  have hlen : W.length = A.length + S.length + X'.length := by
    rw [hW]; simp; omega
  have hskip : skipStars W W.length cw = A.length + S.length := by
    have := skipStars_spec S X' hS hX' A W.length (by omega)
    rw [← hW] at this
    rw [hcw]; exact this
  have hW2 : W = (A ++ S) ++ X' := by simp [hW]
  rw [hskip, cstr_at hW2 (by simp), headD_eq_NUL_iff hw hW2, GlobMatches.nil_text_iff hS X' hX']

theorem StringMatch.exit_spec {W T : List Char} (hw : NUL ∉ W) (ht : NUL ∉ T) {s : SMState}
    (hinv : StringMatch.Inv W T s) (hend : cstr T s.c_text = NUL) :
    cstr W (skipStars W W.length s.c_wildcard) = NUL ↔ GlobMatches W T := by
  cases hinv with
  | noStar A X B Y ct cw hW hT hct hcw h =>
    have hY : Y = [] := by
      rw [cstr_at hT hct] at hend
      exact (headD_eq_NUL_iff ht hT).mp hend
    subst hY
    rw [h]
    exact StringMatch.tail_spec hw hW hcw
  | star A P X B U Y ct cw tl cwl hW hT hct hcw hcwl hPU h1 h2 h =>
    have hT' : T = (B ++ U) ++ Y := by simp [hT]
    have hY : Y = [] := by
      rw [cstr_at hT' (by simp [hct])] at hend
      exact (headD_eq_NUL_iff ht hT').mp hend
    subst hY
    have hW' : W = (A ++ P) ++ X := by simp [hW]
    rw [StringMatch.tail_spec hw hW' (by simp [hcw]), h]
    have hlen : U.length = P.length := (List.Forall₂.length_eq hPU).symm
    constructor
    · intro hX
      refine ⟨B.length, le_refl _, ?_⟩
      rw [hT, List.drop_left]
      exact (GlobMatches.seg_iff hPU _ _).mpr hX
    · rintro ⟨k, hk, hm⟩
      obtain ⟨hle, hX⟩ := GlobMatches.seg_drop (CharMatch.forall_ne_star hPU) _ _ hm
      have hTl : T.length = B.length + U.length := by rw [hT]; simp
      have e : List.drop P.length (List.drop k T) = [] := by
        apply List.drop_eq_nil_of_le
        rw [List.length_drop]
        omega
      rwa [e] at hX

theorem StringMatch.body_spec {W T : List Char} (hw : NUL ∉ W) {s : SMState}
    (hinv : StringMatch.Inv W T s) (hlt : cstr T s.c_text ≠ NUL) :
    StringMatch.Good W T s (StringMatch.body W T s) := by
  cases hinv with
  | noStar A X B Y ct cw hW hT hct hcw h =>
    have hrd : cstr T ct = Y.headD NUL := cstr_at hT hct
    have hrw : cstr W cw = X.headD NUL := cstr_at hW hcw
    cases Y with
    | nil => exact absurd (by simpa using hrd) hlt
    | cons d Y' =>
      have hd : d ≠ NUL := by simpa [hrd] using hlt
      have hTl : T.length = B.length + 1 + Y'.length := by rw [hT]; simp; omega
      cases X with
      | nil =>
        have hno : ¬ GlobMatches W T := by rw [h, GlobMatches.nil_iff]; simp
        simp only [List.headD_nil, List.headD_cons] at hrd hrw
        simp [StringMatch.body, hrd, hrw, NUL_ne_star, NUL_ne_question, hd, StringMatch.Good, hno]
      | cons c X' =>
        simp only [List.headD_cons] at hrd hrw
        by_cases hc : c = '*'
        · subst hc
          obtain ⟨S, X'', rfl, hS, hX''⟩ := exists_stars_split X'
          refine StringMatch.body_star hw (s := ⟨ct, cw, none, 0⟩) (by simpa using hW) hS hX''
            hT hct hcw (Nat.zero_le _) ?_
          rw [h]
          exact GlobMatches.stars_iff (S := '*' :: S)
            (by intro e he; rcases List.mem_cons.mp he with rfl | he
                · rfl
                · exact hS e he) (by simp) X'' _
        · rw [GlobMatches.cons_iff _ _ _ hc] at h
          by_cases hm : d = c ∨ c = '?'
          · simp only [StringMatch.body, hrd, hrw, hc, if_false, hm, if_true, StringMatch.Good]
            constructor
            · refine StringMatch.Inv.noStar (A ++ [c]) X' (B ++ [d]) Y' _ _ (by simp [hW])
                (by simp [hT]) (by simp [hct]) (by simp [hcw]) ?_
              rw [h]
              constructor
              · rintro ⟨d', t', heq, _, h0⟩
                obtain ⟨_, rfl⟩ := List.cons.inj heq
                exact h0
              · intro h0
                exact ⟨d, Y', rfl, by tauto, h0⟩
            · simp only [StringMatch.variant]
              omega
          · have hno : ¬ GlobMatches W T := by
              rw [h]
              rintro ⟨d', t', heq, hcd, _⟩
              obtain ⟨rfl, _⟩ := List.cons.inj heq
              exact hm (by tauto)
            simp [StringMatch.body, hrd, hrw, hc, hm, StringMatch.Good, hno]
  | star A P X B U Y ct cw tl cwl hW hT hct hcw hcwl hPU h1 h2 h =>
    have hT' : T = (B ++ U) ++ Y := by simp [hT]
    have hW' : W = (A ++ P) ++ X := by simp [hW]
    have hrd : cstr T ct = Y.headD NUL := cstr_at hT' (by simp [hct])
    have hrw : cstr W cw = X.headD NUL := cstr_at hW' (by simp [hcw])
    have hlen : U.length = P.length := (List.Forall₂.length_eq hPU).symm
    cases Y with
    | nil => exact absurd (by simpa using hrd) hlt
    | cons d Y' =>
      have hd : d ≠ NUL := by simpa [hrd] using hlt
      have hTl : T.length = B.length + U.length + 1 + Y'.length := by rw [hT]; simp; omega
      -- the rollback branch, taken whenever the remainders cannot match here
      have roll : ¬ GlobMatches X (d :: Y') →
          StringMatch.Good W T ⟨ct, cw, some tl, cwl⟩ (.next ⟨tl, cwl, some (tl + 1), cwl⟩) := by
        intro hno
        constructor
        · refine StringMatch.Inv.star A [] (P ++ X) (T.take tl) [] (T.drop tl) _ _ _ _
            (by simpa using hW) (by simp) (by simp; omega) (by simp [hcwl]) hcwl
            List.Forall₂.nil (by simp) (by simp; omega) ?_
          rw [h]
          have hlt' : (List.take tl T).length = tl := by simp; omega
          rw [hlt']
          constructor
          · rintro ⟨k, hk, hm⟩
            refine ⟨k, ?_, by simpa using hm⟩
            by_contra hcon
            have hkB : k = B.length := by omega
            subst hkB
            rw [hT, List.drop_left] at hm
            exact hno ((GlobMatches.seg_iff hPU _ _).mp hm)
          · rintro ⟨k, hk, hm⟩
            exact ⟨k, by omega, by simpa using hm⟩
        · unfold StringMatch.variant
          apply StringMatch.variant_lt_of_snd
          · simp only [Option.getD_some]
            omega
          · simp only
            omega
      cases X with
      | nil =>
        simp only [List.headD_nil, List.headD_cons] at hrd hrw
        have hno : ¬ GlobMatches [] (d :: Y') := by rw [GlobMatches.nil_iff]; simp
        have := roll hno
        simpa [StringMatch.body, hrd, hrw, NUL_ne_star, NUL_ne_question, hd] using this
      | cons c X' =>
        simp only [List.headD_cons] at hrd hrw
        by_cases hc : c = '*'
        · subst hc
          obtain ⟨S, X'', rfl, hS, hX''⟩ := exists_stars_split X'
          have hSS : ∀ e ∈ '*' :: S, e = '*' := by
            intro e he
            rcases List.mem_cons.mp he with rfl | he
            · rfl
            · exact hS e he
          refine StringMatch.body_star hw (s := ⟨ct, cw, some tl, cwl⟩) (A := A ++ P)
            (by simpa using hW) hS hX'' hT' (by simp [hct]) (by simp [hcw])
            (by simp [hcwl]) ?_
          rw [h]
          have e1 : ∀ V, GlobMatches (P ++ '*' :: (S ++ X'')) V ↔
              GlobMatches (P ++ '*' :: X'') V :=
            GlobMatches.seg_congr P (GlobMatches.stars_iff hSS (by simp) X'')
          simp only [e1]
          rw [hT]
          exact GlobMatches.greedy hPU B (d :: Y') X''
        · by_cases hm : d = c ∨ c = '?'
          · simp only [StringMatch.body, hrd, hrw, hc, if_false, hm, if_true, StringMatch.Good]
            constructor
            · refine StringMatch.Inv.star A (P ++ [c]) X' B (U ++ [d]) Y' _ _ _ _
                (by simp [hW]) (by simp [hT]) (by simp [hct]; omega) (by simp [hcw]; omega)
                hcwl (List.rel_append hPU (List.Forall₂.cons ⟨hc, by tauto⟩ List.Forall₂.nil))
                h1 h2 ?_
              simpa using h
            · simp only [StringMatch.variant]
              omega
          · have hno : ¬ GlobMatches (c :: X') (d :: Y') := by
              rw [GlobMatches.cons_iff _ _ _ hc]
              rintro ⟨d', t', heq, hcd, _⟩
              obtain ⟨rfl, _⟩ := List.cons.inj heq
              exact hm (by tauto)
            have := roll hno
            simpa [StringMatch.body, hrd, hrw, hc, hm] using this

theorem StringMatch.loop_spec {W T : List Char} (hw : NUL ∉ W) (ht : NUL ∉ T) :
    ∀ (fuel : Nat) (s : SMState), StringMatch.Inv W T s → StringMatch.variant W T s < fuel →
      ∃ b, StringMatch.loop W T fuel s = some b ∧ (b = true ↔ GlobMatches W T) := by
  intro fuel
  induction fuel with
  | zero => intro s _ h; exact absurd h (Nat.not_lt_zero _)
  | succ fuel ih =>
    intro s hinv hv
    by_cases hlt : cstr T s.c_text ≠ NUL
    · have hgood := StringMatch.body_spec hw hinv hlt
      cases hb : StringMatch.body W T s with
      | ret b =>
        rw [hb] at hgood
        exact ⟨b, by simp [StringMatch.loop, hlt, hb], hgood⟩
      | next s' =>
        rw [hb] at hgood
        obtain ⟨b, hrun, hbG⟩ := ih s' hgood.1 (by have := hgood.2; omega)
        exact ⟨b, by simp [StringMatch.loop, hlt, hb, hrun], hbG⟩
    · have hend : cstr T s.c_text = NUL := not_not.mp hlt
      refine ⟨decide (cstr W (skipStars W W.length s.c_wildcard) = NUL),
        by simp only [StringMatch.loop, hlt, if_false], ?_⟩
      rw [decide_eq_true_iff]
      exact StringMatch.exit_spec hw ht hinv hend

theorem StringMatch.init_variant (W T : List Char) :
    StringMatch.variant W T StringMatch.init < StringMatch.fuel W T := by
  simp only [StringMatch.variant, StringMatch.init, StringMatch.fuel, Option.getD_none,
    Nat.sub_zero]
  generalize W.length = m
  generalize T.length = n
  have h : (n + 1) * (n + 1) + n < (n + 2) * (n + 1) := by nlinarith
  have e : (m + 2) * ((n + 2) * (n + 1)) = (m + 1) * ((n + 2) * (n + 1)) + (n + 2) * (n + 1) := by
    ring
  omega

/-- C1: for NUL-free `wildcard` and `text`, `StringMatch` returns, and it returns `true`
exactly when `text` matches `wildcard` under the glob semantics (`*` any sequence, `?` any
one character, every other character itself). -/
theorem StringMatch_iff_glob (wildcard text : List Char)
    (hw : NUL ∉ wildcard) (ht : NUL ∉ text) :
    (StringMatch wildcard text = some true ↔ GlobMatches wildcard text) ∧
      (StringMatch wildcard text = some false ↔ ¬ GlobMatches wildcard text) := by
  obtain ⟨b, hrun, hb⟩ := StringMatch.loop_spec hw ht (StringMatch.fuel wildcard text)
    StringMatch.init
    (StringMatch.Inv.noStar [] wildcard [] text 0 0 rfl rfl rfl rfl Iff.rfl)
    (StringMatch.init_variant wildcard text)
  unfold StringMatch
  rw [hrun]
  cases b with
  | true => simpa using hb
  | false => simpa using hb

theorem StringMatch_iff_glob_witness :
    NUL ∉ ['a', '*', 'b', '?'] ∧ NUL ∉ ['a', 'x', 'b', 'y', 'b', 'z'] ∧
    ((StringMatch ['a', '*', 'b', '?'] ['a', 'x', 'b', 'y', 'b', 'z'] = some true ↔
        GlobMatches ['a', '*', 'b', '?'] ['a', 'x', 'b', 'y', 'b', 'z']) ∧
      (StringMatch ['a', '*', 'b', '?'] ['a', 'x', 'b', 'y', 'b', 'z'] = some false ↔
        ¬ GlobMatches ['a', '*', 'b', '?'] ['a', 'x', 'b', 'y', 'b', 'z'])) :=
  ⟨by decide, by decide, StringMatch_iff_glob _ _ (by decide) (by decide)⟩

/-! ### Termination and cursor bounds of `StringMatch` -/

theorem cstr_clen (s : List Char) : cstr s (clen s) = NUL := by
  induction s with
  | nil => rfl
  | cons c s ih =>
    by_cases hc : c = NUL
    · simp [clen, cstr, List.takeWhile, hc]
    · simpa [clen, cstr, List.takeWhile, hc] using ih

theorem clen_le_length (s : List Char) : clen s ≤ s.length := by
  unfold clen
  exact (List.takeWhile_sublist _).length_le

theorem lt_clen_of_ne_NUL {s : List Char} {i : Nat} (hi : i ≤ clen s) (h : cstr s i ≠ NUL) :
    i < clen s := by
  rcases Nat.lt_or_ge i (clen s) with h1 | h1
  · exact h1
  · have e : i = clen s := Nat.le_antisymm hi h1
    rw [e, cstr_clen] at h
    exact absurd rfl h

theorem skipStars_le_clen (w : List Char) :
    ∀ (fuel i : Nat), i ≤ clen w → skipStars w fuel i ≤ clen w := by
  intro fuel
  induction fuel with
  | zero => intro i hi; exact hi
  | succ f ih =>
    intro i hi
    simp only [skipStars]
    split
    · rename_i hstar
      have hne : cstr w i ≠ NUL := by rw [hstar]; decide
      exact ih (i + 1) (lt_clen_of_ne_NUL hi hne)
    · exact hi

theorem le_skipStars (w : List Char) : ∀ (fuel i : Nat), i ≤ skipStars w fuel i := by
  intro fuel
  induction fuel with
  | zero => intro i; exact le_refl _
  | succ f ih =>
    intro i
    simp only [skipStars]
    split
    · exact le_trans (Nat.le_succ i) (ih (i + 1))
    · exact le_refl _

theorem skipStars_stops (w : List Char) :
    ∀ (fuel i : Nat), i ≤ clen w → clen w - i < fuel → cstr w (skipStars w fuel i) ≠ '*' := by
  intro fuel
  induction fuel with
  | zero => intro i _ h; exact absurd h (Nat.not_lt_zero _)
  | succ f ih =>
    intro i hi hf
    simp only [skipStars]
    split
    · rename_i hstar
      have hne : cstr w i ≠ NUL := by rw [hstar]; decide
      have hlt := lt_clen_of_ne_NUL hi hne
      exact ih (i + 1) hlt (by omega)
    · rename_i hstar
      exact hstar

theorem StringMatch.body_bounds {w t : List Char} {s : SMState} {bnd : Nat}
    (hB : StringMatch.Bounds w t s) (hF : StringMatch.Floor w s bnd)
    (hloop : cstr t s.c_text ≠ NUL) :
    ∀ s', StringMatch.body w t s = .next s' →
      StringMatch.Bounds w t s' ∧ StringMatch.variant w t s' < StringMatch.variant w t s ∧
      (if StringMatch.rollsBack w t s then
          bnd ≤ s'.c_text ∧ StringMatch.Floor w s' (s'.c_text + 1)
        else StringMatch.Floor w s' bnd) := by
  obtain ⟨ct, cw, tl, cwl⟩ := s
  obtain ⟨b1, b2, b3, b4⟩ := hB
  obtain ⟨f1, f2⟩ := hF
  simp only at b1 b2 b3 b4 f1 f2 hloop
  have hct : ct < clen t := lt_clen_of_ne_NUL b1 hloop
  have hlt := clen_le_length t
  have hlw := clen_le_length w
  intro s' hs'
  by_cases c1 : cstr w cw = '*'
  · -- a `*`
    have hne : cstr w cw ≠ NUL := by rw [c1]; decide
    have hcw : cw < clen w := lt_clen_of_ne_NUL b2 hne
    have h1 := skipStars_le_clen w w.length (cw + 1) hcw
    have h2 := le_skipStars w w.length (cw + 1)
    have h3 := skipStars_stops w w.length (cw + 1) hcw (by omega)
    have hrb : StringMatch.rollsBack w t ⟨ct, cw, tl, cwl⟩ = false := by
      simp [StringMatch.rollsBack, c1]
    rw [hrb]
    by_cases hn : cstr w (skipStars w w.length (cw + 1)) = NUL
    · simp [StringMatch.body, c1, hn] at hs'
    · simp only [StringMatch.body, c1, if_true, hn, if_false, SMStep.next.injEq] at hs'
      subst hs'
      refine ⟨⟨b1, h1, le_refl _, ?_⟩, ?_, ?_⟩
      · intro v hv
        have e : ct = v := Option.some.inj hv
        subst e
        exact ⟨by first | omega | (simp only; omega), by first | omega | (simp only; omega), by first | omega | (simp only; omega), h3⟩
      · unfold StringMatch.variant
        apply StringMatch.variant_lt_of_fst
        · simp only
          omega
        · simp only [Option.getD_some]
          omega
        · simp only
          omega
      · have hb : bnd ≤ ct := by
          rcases f2 with h | ⟨_, h⟩
          · exact h
          · exact absurd c1 h
        simp only [Bool.false_eq_true, if_false]
        refine ⟨?_, Or.inl hb⟩
        intro v hv
        have e : ct = v := Option.some.inj hv
        omega
  · by_cases c2 : cstr t ct = cstr w cw ∨ cstr w cw = '?'
    · -- the characters match
      have hne : cstr w cw ≠ NUL := by
        rcases c2 with h | h
        · rw [← h]; exact hloop
        · rw [h]; decide
      have hcw : cw < clen w := lt_clen_of_ne_NUL b2 hne
      have hrb : StringMatch.rollsBack w t ⟨ct, cw, tl, cwl⟩ = false := by
        simp [StringMatch.rollsBack, c2]
      rw [hrb]
      simp only [StringMatch.body, c1, if_false, c2, if_true, SMStep.next.injEq] at hs'
      subst hs'
      refine ⟨⟨hct, hcw, by first | omega | (simp only; omega), ?_⟩, ?_, ?_⟩
      · intro v hv
        obtain ⟨g1, g2, g3, g4⟩ := b4 v hv
        exact ⟨by first | omega | (simp only; omega), by first | omega | (simp only; omega), by first | omega | (simp only; omega), g4⟩
      · simp only [StringMatch.variant]
        omega
      · simp only [Bool.false_eq_true, if_false]
        refine ⟨f1, Or.inl ?_⟩
        simp only
        omega
    · -- mismatch
      cases tl with
      | none => simp [StringMatch.body, c1, c2] at hs'
      | some v =>
        have hrb : StringMatch.rollsBack w t ⟨ct, cw, some v, cwl⟩ = true := by
          simp only [StringMatch.rollsBack, Option.isSome_some, and_true, decide_eq_true_eq]
          exact ⟨hloop, c1, c2⟩
        rw [hrb]
        simp only [StringMatch.body, c1, if_false, c2, SMStep.next.injEq] at hs'
        subst hs'
        obtain ⟨g1, g2, g3, g4⟩ := b4 v rfl
        have hv := f1 v rfl
        refine ⟨⟨by first | omega | (simp only; omega), by first | omega | (simp only; omega), le_refl _, ?_⟩, ?_, ?_⟩
        · intro v' hv'
          have e : v + 1 = v' := Option.some.inj hv'
          subst e
          exact ⟨by first | omega | (simp only; omega), by first | omega | (simp only; omega), by first | omega | (simp only; omega), g4⟩
        · unfold StringMatch.variant
          apply StringMatch.variant_lt_of_snd
          · simp only [Option.getD_some]
            omega
          · simp only
            omega
        · simp only [if_true]
          refine ⟨hv, ?_, Or.inr ⟨rfl, g4⟩⟩
          intro v' hv'
          have e : v + 1 = v' := Option.some.inj hv'
          omega

theorem StringMatch.run_bounds {w t : List Char} :
    ∀ (fuel : Nat) (s : SMState) (bnd : Nat), StringMatch.Bounds w t s →
      StringMatch.Floor w s bnd → StringMatch.variant w t s < fuel →
      (∃ b, StringMatch.loop w t fuel s = some b) ∧
      ((StringMatch.restarts w t fuel s).Pairwise (fun x y => x < y) ∧
        ∀ v ∈ StringMatch.restarts w t fuel s, bnd ≤ v) ∧
      ∀ s' ∈ StringMatch.visited w t fuel s, StringMatch.Bounds w t s' := by
  intro fuel
  induction fuel with
  | zero => intro s bnd _ _ h; exact absurd h (Nat.not_lt_zero _)
  | succ fuel ih =>
    intro s bnd hB hF hv
    by_cases hloop : cstr t s.c_text ≠ NUL
    · cases hb : StringMatch.body w t s with
      | ret b =>
        refine ⟨⟨b, by simp [StringMatch.loop, hloop, hb]⟩, ?_, ?_⟩
        · simp [StringMatch.restarts, hloop, hb]
        · intro s' hs'
          simp only [StringMatch.visited, if_pos hloop, hb, List.mem_singleton] at hs'
          rw [hs']; exact hB
      | next s1 =>
        obtain ⟨hB1, hv1, hrest⟩ := StringMatch.body_bounds hB hF hloop s1 hb
        by_cases hrb : StringMatch.rollsBack w t s = true
        · simp only [hrb, if_true] at hrest
          obtain ⟨⟨b, hrun⟩, ⟨hpw, hge⟩, hvis⟩ := ih s1 (s1.c_text + 1) hB1 hrest.2 (by omega)
          refine ⟨⟨b, by simp [StringMatch.loop, hloop, hb, hrun]⟩, ?_, ?_⟩
          · simp only [StringMatch.restarts, if_pos hloop, hb, hrb, if_true, List.pairwise_cons,
              List.mem_cons, forall_eq_or_imp]
            refine ⟨⟨?_, hpw⟩, hrest.1, ?_⟩
            · intro v hv'
              have := hge v hv'
              omega
            · intro v hv'
              have := hge v hv'
              omega
          · intro s' hs'
            simp only [StringMatch.visited, if_pos hloop, hb, List.mem_cons] at hs'
            rcases hs' with h | h
            · rw [h]; exact hB
            · exact hvis s' h
        · simp only [hrb, if_false] at hrest
          obtain ⟨⟨b, hrun⟩, ⟨hpw, hge⟩, hvis⟩ := ih s1 bnd hB1 hrest (by omega)
          refine ⟨⟨b, by simp [StringMatch.loop, hloop, hb, hrun]⟩, ?_, ?_⟩
          · simp only [StringMatch.restarts, if_pos hloop, hb, hrb, Bool.false_eq_true, if_false]
            exact ⟨hpw, hge⟩
          · intro s' hs'
            simp only [StringMatch.visited, if_pos hloop, hb, List.mem_cons] at hs'
            rcases hs' with h | h
            · rw [h]; exact hB
            · exact hvis s' h
    · refine ⟨⟨decide (cstr w (skipStars w w.length s.c_wildcard) = NUL),
        by simp only [StringMatch.loop, if_neg hloop]⟩, ?_, ?_⟩
      · simp [StringMatch.restarts, hloop]
      · intro s' hs'
        simp only [StringMatch.visited, if_neg hloop, List.mem_singleton] at hs'
        rw [hs']; exact hB

/-- C16: for every wildcard string and every text string, `StringMatch` returns; the offsets at
which successive rollbacks restart the text cursor are strictly increasing; and at every pass
of the loop the text cursor is at most `strlen(text)` and the wildcard cursor at most
`strlen(wildcard)`, also after the star-skipping loops of lines 309 and 332 have advanced
it. -/
theorem StringMatch_terminates (wildcard text : List Char) :
    (∃ b, StringMatch wildcard text = some b) ∧
      (StringMatch.restarts wildcard text (StringMatch.fuel wildcard text)
        StringMatch.init).Pairwise (fun x y => x < y) ∧
      ∀ s ∈ StringMatch.visited wildcard text (StringMatch.fuel wildcard text) StringMatch.init,
        s.c_text ≤ clen text ∧ s.c_wildcard ≤ clen wildcard ∧
        skipStars wildcard wildcard.length s.c_wildcard ≤ clen wildcard ∧
        (cstr wildcard s.c_wildcard = '*' →
          skipStars wildcard wildcard.length (s.c_wildcard + 1) ≤ clen wildcard) := by
  have hB : StringMatch.Bounds wildcard text StringMatch.init := by
    refine ⟨Nat.zero_le _, Nat.zero_le _, le_refl _, ?_⟩
    intro v hv
    simp [StringMatch.init] at hv
  have hF : StringMatch.Floor wildcard StringMatch.init 0 :=
    ⟨fun _ _ => Nat.zero_le _, Or.inl (Nat.zero_le _)⟩
  obtain ⟨hret, ⟨hpw, _⟩, hvis⟩ := StringMatch.run_bounds (StringMatch.fuel wildcard text)
    StringMatch.init 0 hB hF (StringMatch.init_variant wildcard text)
  refine ⟨hret, hpw, ?_⟩
  intro s hs
  obtain ⟨b1, b2, _, _⟩ := hvis s hs
  refine ⟨b1, b2, skipStars_le_clen _ _ _ b2, ?_⟩
  intro hstar
  have hne : cstr wildcard s.c_wildcard ≠ NUL := by rw [hstar]; decide
  exact skipStars_le_clen _ _ _ (lt_clen_of_ne_NUL b2 hne)

/-! ## `ThreadClock` -/

namespace ThreadClock

variable {kMaxTid : Nat}

theorem slot_natCast {tid : Nat} (h : tid < kMaxTid) :
    slot kMaxTid (tid : Int) = some ⟨tid, h⟩ := by
  have h' : (0 : Int) ≤ tid ∧ (tid : Int) < kMaxTid := ⟨by omega, by omega⟩
  simp [slot, h']

theorem slot_eq_some {tid : Int} {i : Fin kMaxTid} (h : slot kMaxTid tid = some i) :
    tid = (i : Int) := by
  unfold slot at h
  split at h
  · rename_i hb
    have := Option.some.inj h
    have hi : (i : Nat) = tid.toNat := by rw [← this]
    omega
  · exact absurd h (by simp)

theorem get_natCast (tc : ThreadClock kMaxTid) {tid : Nat} (h : tid < kMaxTid) :
    tc.get (tid : Int) = .ok (tc.clk_ ⟨tid, h⟩) := by
  have h' : (tid : Int) < kMaxTid := by omega
  simp [get, h', slot_natCast h]

theorem tick_natCast (tc : ThreadClock kMaxTid) {tid : Nat} (h : tid < kMaxTid) :
    tc.tick (tid : Int) = .ok
      { nclk_ := if tc.nclk_ ≤ (tid : Int) then (tid : Int) + 1 else tc.nclk_
        clk_ := Function.update tc.clk_ ⟨tid, h⟩ ((tc.clk_ ⟨tid, h⟩ + 1) % u64Size) } := by
  have h' : (tid : Int) < kMaxTid := by omega
  simp [tick, h', slot_natCast h]

theorem set_natCast (tc : ThreadClock kMaxTid) {tid : Nat} (h : tid < kMaxTid) (v : Nat) :
    tc.set (tid : Int) v =
      if ¬ v ≥ tc.clk_ ⟨tid, h⟩ then .error .valueCheck
      else .ok
        { nclk_ := if tc.nclk_ ≤ (tid : Int) then (tid : Int) + 1 else tc.nclk_
          clk_ := Function.update tc.clk_ ⟨tid, h⟩ v } := by
  have h' : (tid : Int) < kMaxTid := by omega
  simp [set, h', slot_natCast h]

/-- What a successful operation has done. -/
theorem apply_ok {tc tc' : ThreadClock kMaxTid} {op : Op} (h : tc.apply op = .ok tc') :
    ∃ i : Fin kMaxTid, slot kMaxTid op.tid = some i ∧
      tc'.nclk_ = max tc.nclk_ (op.tid + 1) ∧
      tc'.clk_ = Function.update tc.clk_ i
        (match op with
          | .set _ v => v
          | .tick _ => (tc.clk_ i + 1) % u64Size) ∧
      (∀ tid v, op = .set tid v → tc.clk_ i ≤ v) := by
  cases op with
  | set tid v =>
    simp only [apply, set] at h
    split at h
    · exact absurd h (by simp)
    · split at h
      · exact absurd h (by simp)
      · rename_i i hi
        split at h
        · exact absurd h (by simp)
        · rename_i hv
          have := Except.ok.inj h
          subst this
          refine ⟨i, hi, ?_, rfl, ?_⟩
          · simp only [Op.tid]
            split <;> omega
          · intro tid' v' e
            cases e
            omega
  | tick tid =>
    simp only [apply, tick] at h
    split at h
    · exact absurd h (by simp)
    · split at h
      · exact absurd h (by simp)
      · rename_i i hi
        have := Except.ok.inj h
        subst this
        refine ⟨i, hi, ?_, rfl, ?_⟩
        · simp only [Op.tid]
          split <;> omega
        · intro tid' v' e
          cases e

theorem run_size {ops : List Op} :
    ∀ {tc tc' : ThreadClock kMaxTid}, tc.run ops = .ok tc' → 0 ≤ tc.nclk_ →
      tc'.nclk_ = max tc.nclk_ (onePastHighest ops) ∧ 0 ≤ onePastHighest ops ∧
      (tc.ZeroBeyond → tc'.ZeroBeyond) := by
  induction ops with
  | nil =>
    intro tc tc' h h0
    have := Except.ok.inj h
    subst this
    simp [onePastHighest, h0]
  | cons op ops ih =>
    intro tc tc' h h0
    simp only [run] at h
    cases hop : tc.apply op with
    | error e => rw [hop] at h; exact absurd h (by simp)
    | ok tc1 =>
      rw [hop] at h
      obtain ⟨j, hj, hn, hclk, _⟩ := apply_ok hop
      have hjt := slot_eq_some hj
      obtain ⟨h1, h2, h3⟩ := ih h (by omega)
      refine ⟨?_, ?_, ?_⟩
      · simp only [onePastHighest]
        omega
      · simp only [onePastHighest]
        omega
      · intro hz
        apply h3
        intro i hi
        rw [hclk]
        have hij : i ≠ j := by
          rintro rfl
          omega
        rw [Function.update_noteq hij]
        exact hz i (by omega)

end ThreadClock

/-- C2: with `release` and `acquire` as the specification describes them, after
`release(tc_A, sc); acquire(tc_B, sc)` every slot of `tc_B` is at least the value that slot
had in `tc_A` at the release.  `tc_A` is a clock of the data model: its counters beyond its
logical length are zero. -/
theorem ThreadClock_release_acquire_ge {kMaxTid : Nat} (tcA tcB : ThreadClock kMaxTid)
    (sc : SyncClock) (hA : tcA.ZeroBeyond) (i : Fin kMaxTid) :
    tcA.clk_ i ≤ (tcB.acquire (tcA.release sc)).clk_ i := by
  by_cases hi : tcA.nclk_ ≤ (i : Int)
  · rw [hA i hi]
    exact Nat.zero_le _
  · have hi' : (i : Int) < tcA.nclk_ := by omega
    have hpos : ¬ (tcA.release sc).nclk_ ≤ 0 := by
      simp only [ThreadClock.release]
      omega
    have hlt : (i : Int) < max tcB.nclk_ (tcA.release sc).nclk_ := by
      simp only [ThreadClock.release]
      omega
    have hrel : tcA.clk_ i ≤ (tcA.release sc).clk (i : Nat) := by
      have hc : (i : Nat) < kMaxTid ∧ ((i : Nat) : Int) < max tcA.nclk_ sc.nclk_ :=
        ⟨i.2, by omega⟩
      simp only [ThreadClock.release, hc, and_self, dite_true]
      exact le_max_right _ _
    simp only [ThreadClock.acquire, hpos, if_false, hlt, if_true]
    exact le_trans hrel (le_max_right _ _)

theorem ThreadClock_release_acquire_ge_witness :
    (ThreadClock.mk 2 (fun i => if i = 0 then 5 else if i = 1 then 7 else 0) : ThreadClock 3).ZeroBeyond ∧
    (ThreadClock.mk 2 (fun i => if i = 0 then 5 else if i = 1 then 7 else 0) : ThreadClock 3).clk_ 1 ≤
      ((ThreadClock.mk 0 (fun _ => 0) : ThreadClock 3).acquire
        ((ThreadClock.mk 2 (fun i => if i = 0 then 5 else if i = 1 then 7 else 0) : ThreadClock 3).release
          ⟨0, fun _ => 0⟩)).clk_ 1 :=
  ⟨by intro i hi; fin_cases i <;> simp_all,
   ThreadClock_release_acquire_ge _ _ _ (by intro i hi; fin_cases i <;> simp_all) 1⟩

/-- C4, refuted as stated: on a clock whose slot 0 holds `2^64 - 1`, `tick(0)` succeeds and
leaves `get(0) = 0`, which is neither the previous value plus one nor an increase. -/
theorem ThreadClock_tick_wraps :
    (ThreadClock.mk 1 (fun _ => 2 ^ 64 - 1) : ThreadClock 1).get 0 = .ok (2 ^ 64 - 1) ∧
    ((ThreadClock.mk 1 (fun _ => 2 ^ 64 - 1) : ThreadClock 1).tick 0).bind
        (fun tc => tc.get 0) = .ok 0 := by
  constructor <;> rfl

/-- C4, amended: for every clock and every thread id `tid < kMaxTid` whose slot holds a value
`a` below `2^64 - 1`, `tick(tid)` succeeds, makes `get(tid)` equal to `a + 1` (a strict
increase) and makes `size()` equal to `max(previous size, tid + 1)`. -/
theorem ThreadClock_tick_spec {kMaxTid : Nat} (tc : ThreadClock kMaxTid) (tid : Nat)
    (htid : tid < kMaxTid) (a : Nat) (ha : tc.get tid = .ok a) (hno : a + 1 < u64Size) :
    ∃ tc' b, tc.tick tid = .ok tc' ∧ tc'.get tid = .ok b ∧ b = a + 1 ∧ a < b ∧
      tc'.size = max tc.size ((tid : Int) + 1) := by
  rw [ThreadClock.get_natCast tc htid] at ha
  have ea := Except.ok.inj ha
  refine ⟨_, a + 1, ThreadClock.tick_natCast tc htid, ?_, rfl, Nat.lt_succ_self a, ?_⟩
  · rw [ThreadClock.get_natCast _ htid]
    simp only [Function.update_same, ea, Nat.mod_eq_of_lt hno]
  · simp only [ThreadClock.size]
    split <;> omega

theorem ThreadClock_tick_spec_witness :
    (1 : Nat) < 2 ∧ (ThreadClock.mk 0 (fun _ => 6) : ThreadClock 2).get (1 : Nat) = .ok 6 ∧
    6 + 1 < u64Size ∧
    ∃ tc' b, (ThreadClock.mk 0 (fun _ => 6) : ThreadClock 2).tick (1 : Nat) = .ok tc' ∧
      tc'.get (1 : Nat) = .ok b ∧ b = 6 + 1 ∧ 6 < b ∧
      tc'.size = max (ThreadClock.mk 0 (fun _ => 6) : ThreadClock 2).size (((1 : Nat) : Int) + 1) :=
  ⟨by decide, by rfl, by decide,
   ThreadClock_tick_spec _ 1 (by decide) 6 (by rfl) (by decide)⟩

/-- C5, evaluation at the failing input: for every `kMaxTid`, `tid = -1` satisfies the claim's
condition `tid < kMaxTid` and passes `DCHECK(tid < kMaxTid)` in `get` and `set`, but there is
no slot `clk_[-1]`: `get(-1)` has no value to compare `v` with, and `set(-1, v)` passes its
first assertion and then evaluates `clk_[-1]`, outside the array, instead of storing `v` in a
slot and leaving `size()` at `max(previous size, 0)`. -/
theorem ThreadClock_set_negative_tid {kMaxTid : Nat} (tc : ThreadClock kMaxTid) (v : Nat) :
    (-1 : Int) < kMaxTid ∧ ThreadClock.slot kMaxTid (-1) = none ∧
      tc.get (-1) = .error .outOfBounds ∧
      tc.set (-1) v = .error .outOfBounds ∧
      ¬ ∃ tc', tc.set (-1) v = .ok tc' := by
  have h : (-1 : Int) < kMaxTid := by omega
  have hs : ThreadClock.slot kMaxTid (-1) = none := by
    simp [ThreadClock.slot]
  have hset : tc.set (-1) v = .error .outOfBounds := by
    simp only [ThreadClock.set, h, not_true, if_false, hs]
  refine ⟨h, hs, ?_, hset, ?_⟩
  · simp only [ThreadClock.get, h, not_true, if_false, hs]
  · rintro ⟨tc', h'⟩
    rw [hset] at h'
    exact absurd h' (by simp)

/-- Away from the failing input of C5: for every clock, every `int` thread id with
`0 <= tid < kMaxTid` and every value `v`, `set(tid, v)` passes its assertions exactly when
`v >= get(tid)` (and otherwise stops at `DCHECK(v >= clk_[tid])`); when it passes, `get(tid)`
afterwards is `v` and `size()` is `max(previous size, tid + 1)`. -/
theorem ThreadClock_set_spec {kMaxTid : Nat} (tc : ThreadClock kMaxTid) (tid : Int)
    (h0 : 0 ≤ tid) (hlt : tid < kMaxTid) (v : Nat) :
    ∃ a, tc.get tid = .ok a ∧
      ((∃ tc', tc.set tid v = .ok tc') ↔ v ≥ a) ∧
      (¬ v ≥ a → tc.set tid v = .error .valueCheck) ∧
      ∀ tc', tc.set tid v = .ok tc' →
        tc'.get tid = .ok v ∧ tc'.size = max tc.size (tid + 1) := by
  obtain ⟨n, rfl⟩ := Int.eq_ofNat_of_zero_le h0
  have htid : n < kMaxTid := by exact_mod_cast hlt
  refine ⟨tc.clk_ ⟨n, htid⟩, ThreadClock.get_natCast tc htid, ?_, ?_, ?_⟩
  · rw [ThreadClock.set_natCast tc htid]
    by_cases hv : v ≥ tc.clk_ ⟨n, htid⟩
    · simp [hv]
    · simp [hv]
  · intro hv
    rw [ThreadClock.set_natCast tc htid]
    simp [hv]
  · intro tc' hset
    rw [ThreadClock.set_natCast tc htid] at hset
    split at hset
    · exact absurd hset (by simp)
    · have := Except.ok.inj hset
      subst this
      refine ⟨?_, ?_⟩
      · rw [ThreadClock.get_natCast _ htid]
        simp only [Function.update_same]
      · simp only [ThreadClock.size]
        split <;> omega

theorem ThreadClock_set_spec_witness :
    (0 : Int) ≤ 1 ∧ (1 : Int) < ((2 : Nat) : Int) ∧
    ∃ a, (ThreadClock.mk 0 (fun _ => 6) : ThreadClock 2).get 1 = .ok a ∧
      ((∃ tc', (ThreadClock.mk 0 (fun _ => 6) : ThreadClock 2).set 1 9 = .ok tc') ↔
        9 ≥ a) ∧
      (¬ 9 ≥ a →
        (ThreadClock.mk 0 (fun _ => 6) : ThreadClock 2).set 1 9 = .error .valueCheck) ∧
      ∀ tc', (ThreadClock.mk 0 (fun _ => 6) : ThreadClock 2).set 1 9 = .ok tc' →
        tc'.get 1 = .ok 9 ∧
        tc'.size = max (ThreadClock.mk 0 (fun _ => 6) : ThreadClock 2).size ((1 : Int) + 1) :=
  ⟨by decide, by decide, ThreadClock_set_spec _ 1 (by decide) (by decide) 9⟩

/-- C6: with `kMaxTid` positive, `get`, `set` and `tick` work at `tid = kMaxTid - 1` (the slot
exists, `get` returns it, `set` stores any value not below it, `tick` increments it), and at
`tid = kMaxTid` each of them stops at `DCHECK(tid < kMaxTid)`. -/
theorem ThreadClock_boundary_tid {kMaxTid : Nat} (hk : 0 < kMaxTid)
    (tc : ThreadClock kMaxTid) (v : Nat) :
    ∃ a, tc.get ((kMaxTid : Int) - 1) = .ok a ∧
      (v ≥ a → ∃ tc', tc.set ((kMaxTid : Int) - 1) v = .ok tc' ∧
        tc'.get ((kMaxTid : Int) - 1) = .ok v) ∧
      (∃ tc', tc.tick ((kMaxTid : Int) - 1) = .ok tc' ∧
        tc'.get ((kMaxTid : Int) - 1) = .ok ((a + 1) % u64Size)) ∧
      tc.get kMaxTid = .error .tidCheck ∧
      tc.set kMaxTid v = .error .tidCheck ∧
      tc.tick kMaxTid = .error .tidCheck := by
  have hlt : kMaxTid - 1 < kMaxTid := by omega
  have e : (kMaxTid : Int) - 1 = ((kMaxTid - 1 : Nat) : Int) := by omega
  rw [e]
  refine ⟨tc.clk_ ⟨kMaxTid - 1, hlt⟩, ThreadClock.get_natCast tc hlt, ?_, ?_, ?_, ?_, ?_⟩
  · intro hv
    refine ⟨_, by rw [ThreadClock.set_natCast tc hlt, if_neg (not_not.mpr hv)], ?_⟩
    rw [ThreadClock.get_natCast _ hlt]
    simp only [Function.update_same]
  · refine ⟨_, ThreadClock.tick_natCast tc hlt, ?_⟩
    rw [ThreadClock.get_natCast _ hlt]
    simp only [Function.update_same]
  · simp [ThreadClock.get]
  · simp [ThreadClock.set]
  · simp [ThreadClock.tick]

theorem ThreadClock_boundary_tid_witness :
    0 < 2 ∧
    ∃ a, (ThreadClock.mk 0 (fun _ => 6) : ThreadClock 2).get (((2 : Nat) : Int) - 1) = .ok a ∧
      (9 ≥ a → ∃ tc', (ThreadClock.mk 0 (fun _ => 6) : ThreadClock 2).set
          (((2 : Nat) : Int) - 1) 9 = .ok tc' ∧
        tc'.get (((2 : Nat) : Int) - 1) = .ok 9) ∧
      (∃ tc', (ThreadClock.mk 0 (fun _ => 6) : ThreadClock 2).tick
          (((2 : Nat) : Int) - 1) = .ok tc' ∧
        tc'.get (((2 : Nat) : Int) - 1) = .ok ((a + 1) % u64Size)) ∧
      (ThreadClock.mk 0 (fun _ => 6) : ThreadClock 2).get (2 : Nat) = .error .tidCheck ∧
      (ThreadClock.mk 0 (fun _ => 6) : ThreadClock 2).set (2 : Nat) 9 = .error .tidCheck ∧
      (ThreadClock.mk 0 (fun _ => 6) : ThreadClock 2).tick (2 : Nat) = .error .tidCheck :=
  ⟨by decide, ThreadClock_boundary_tid (by decide) _ 9⟩

namespace ThreadClock

variable {kMaxTid : Nat}

theorem run_append {ops1 : List Op} :
    ∀ {tc tc1 : ThreadClock kMaxTid} (ops2 : List Op), tc.run ops1 = .ok tc1 →
      tc.run (ops1 ++ ops2) = tc1.run ops2 := by
  induction ops1 with
  | nil =>
    intro tc tc1 ops2 h
    have := Except.ok.inj h
    subst this
    rfl
  | cons op ops ih =>
    intro tc tc1 ops2 h
    simp only [run, List.cons_append] at h ⊢
    cases hop : tc.apply op with
    | error e => rw [hop] at h; exact absurd h (by simp)
    | ok tc' =>
      rw [hop] at h
      simp only
      exact ih ops2 h

end ThreadClock

/-- C7, evaluation at the failing input: on the clock with `size() = 0` and all slots zero, for
every `kMaxTid`, the one-call sequence `tick(-1)` passes the only assertion,
`DCHECK(tid < kMaxTid)`, and the highest index passed is `-1`, so the claim puts `size()` at
`0` and all slots at zero; but `clk_[tid]++` is then evaluated at `clk_[-1]`, outside the array,
and the sequence has no resulting clock of which that could hold. -/
theorem ThreadClock_tick_negative_tid (kMaxTid : Nat) :
    (-1 : Int) < kMaxTid ∧ ThreadClock.onePastHighest [.tick (-1)] = 0 ∧
      (ThreadClock.mk 0 (fun _ => 0) : ThreadClock kMaxTid).tick (-1) = .error .outOfBounds ∧
      (ThreadClock.mk 0 (fun _ => 0) : ThreadClock kMaxTid).run [.tick (-1)] =
        .error .outOfBounds := by
  have h : (-1 : Int) < kMaxTid := by omega
  have hs : ThreadClock.slot kMaxTid (-1) = none := by
    simp [ThreadClock.slot]
  have ht : (ThreadClock.mk 0 (fun _ => 0) : ThreadClock kMaxTid).tick (-1) =
      .error .outOfBounds := by
    simp only [ThreadClock.tick, h, not_true, if_false, hs]
  refine ⟨h, by decide, ht, ?_⟩
  simp only [ThreadClock.run, ThreadClock.apply, ht]

/-- Away from the failing input of C7: starting from a clock with `size() = 0` and all slots
zero, after every sequence of `set` and `tick` operations that runs without fault (no assertion
fails and no thread id is negative), `size()` is one past the highest index passed to `set` or
`tick` so far, it is not smaller than it was at any earlier point of the sequence, and every
slot at an index `>= size()` is zero. -/
theorem ThreadClock_size_spec {kMaxTid : Nat} (tc0 tc1 tc2 : ThreadClock kMaxTid)
    (hsize : tc0.size = 0) (hzero : ∀ i, tc0.clk_ i = 0) (ops1 ops2 : List ThreadClock.Op)
    (h1 : tc0.run ops1 = .ok tc1) (h2 : tc1.run ops2 = .ok tc2) :
    tc1.size ≤ tc2.size ∧
      tc2.size = ThreadClock.onePastHighest (ops1 ++ ops2) ∧
      ∀ i : Fin kMaxTid, tc2.size ≤ (i : Int) → tc2.get (i : Nat) = .ok 0 := by
  have h12 : tc0.run (ops1 ++ ops2) = .ok tc2 := by
    rw [ThreadClock.run_append ops2 h1]; exact h2
  simp only [ThreadClock.size] at hsize ⊢
  obtain ⟨a1, a2, _⟩ := ThreadClock.run_size h1 (by omega)
  obtain ⟨b1, b2, _⟩ := ThreadClock.run_size h2 (by omega)
  obtain ⟨c1, c2, c3⟩ := ThreadClock.run_size h12 (by omega)
  refine ⟨by omega, by omega, ?_⟩
  intro i hi
  rw [ThreadClock.get_natCast tc2 i.2]
  have hz : tc2.ZeroBeyond := c3 (fun j _ => hzero j)
  rw [hz i hi]

theorem ThreadClock_size_spec_witness :
    (ThreadClock.mk 0 (fun _ => 0) : ThreadClock 3).size = 0 ∧
    (ThreadClock.mk 0 (fun _ => 0) : ThreadClock 3).run [.tick 1]
      = .ok (ThreadClock.mk 2 (fun i => if i = 1 then 1 else 0)) ∧
    (ThreadClock.mk 2 (fun i => if i = 1 then 1 else 0) : ThreadClock 3).run [.set 0 4]
      = .ok (ThreadClock.mk 2 (fun i => if i = 1 then 1 else if i = 0 then 4 else 0)) ∧
    ((ThreadClock.mk 2 (fun i => if i = 1 then 1 else 0) : ThreadClock 3).size ≤
        (ThreadClock.mk 2 (fun i => if i = 1 then 1 else if i = 0 then 4 else 0) :
          ThreadClock 3).size ∧
      (ThreadClock.mk 2 (fun i => if i = 1 then 1 else if i = 0 then 4 else 0) :
          ThreadClock 3).size = ThreadClock.onePastHighest ([.tick 1] ++ [.set 0 4]) ∧
      ∀ i : Fin 3, (ThreadClock.mk 2 (fun i => if i = 1 then 1 else if i = 0 then 4 else 0) :
          ThreadClock 3).size ≤ (i : Int) →
        (ThreadClock.mk 2 (fun i => if i = 1 then 1 else if i = 0 then 4 else 0) :
          ThreadClock 3).get (i : Nat) = .ok 0) :=
  have hr1 : (ThreadClock.mk 0 (fun _ => 0) : ThreadClock 3).run [.tick 1]
      = .ok (ThreadClock.mk 2 (fun i => if i = 1 then 1 else 0)) := by
    simp only [ThreadClock.run, ThreadClock.apply, ThreadClock.tick, ThreadClock.slot]
    simp
    funext i
    fin_cases i <;> simp [Function.update, u64Size]
  have hr2 : (ThreadClock.mk 2 (fun i => if i = 1 then 1 else 0) : ThreadClock 3).run [.set 0 4]
      = .ok (ThreadClock.mk 2 (fun i => if i = 1 then 1 else if i = 0 then 4 else 0)) := by
    simp only [ThreadClock.run, ThreadClock.apply, ThreadClock.set, ThreadClock.slot]
    simp
    funext i
    fin_cases i <;> simp [Function.update]
  ⟨rfl, hr1, hr2, ThreadClock_size_spec (ThreadClock.mk 0 (fun _ => 0)) _ _ rfl (fun _ => rfl)
    _ _ hr1 hr2⟩

/-- C20, evaluation at the failing input: `tid = -1` passes `DCHECK(tid < kMaxTid)` for every
`kMaxTid`, and `get`, `set` and `tick` then evaluate `clk_[-1]`, which is no element of
`clk_`. -/
theorem ThreadClock_negative_tid {kMaxTid : Nat} (tc : ThreadClock kMaxTid) (v : Nat) :
    (-1 : Int) < kMaxTid ∧ ThreadClock.slot kMaxTid (-1) = none ∧
      tc.get (-1) = .error .outOfBounds ∧
      tc.set (-1) v = .error .outOfBounds ∧
      tc.tick (-1) = .error .outOfBounds := by
  have h : (-1 : Int) < kMaxTid := by omega
  have hs : ThreadClock.slot kMaxTid (-1) = none := by
    simp [ThreadClock.slot]
  refine ⟨h, hs, ?_, ?_, ?_⟩
  · simp only [ThreadClock.get, h, not_true, if_false, hs]
  · simp only [ThreadClock.set, h, not_true, if_false, hs]
  · simp only [ThreadClock.tick, h, not_true, if_false, hs]

/-! ## `Mutex` -/

theorem land_not_one (x : Nat) (hx : x < 2 ^ 64) : x &&& (2 ^ 64 - 1 - 1) = 2 * (x / 2) := by
  have h1 : x = Nat.bit x.bodd x.div2 := (Nat.bit_decomp x).symm
  have h2 : (2 ^ 64 - 1 - 1 : Nat) = Nat.bit false (2 ^ 63 - 1) := by
    simp [Nat.bit]
  have h3 : x.div2 &&& (2 ^ 63 - 1) = x.div2 := by
    rw [Nat.and_pow_two_sub_one_eq_mod, Nat.div2_val]
    apply Nat.mod_eq_of_lt
    omega
  rw [h2]
  conv_lhs => rw [h1]
  rw [Nat.land_bit, h3]
  simp [Nat.bit, Nat.div2_val]

namespace Mutex

theorem lock_step_start (sp : Bool) (w : Nat) :
    Lock.step .start sp w = if w = 0 then (1, .done) else (w, .spin Backoff.new) := by
  simp only [Lock.step, atomic_compare_exchange_strong, kUnlocked, kWriteLock]
  split <;> simp

theorem lock_step_spin (b : Backoff) (sp : Bool) (w : Nat) :
    Lock.step (.spin b) sp w = if w = 0 then (w, .cas b.Do.1) else (w, .spin b.Do.1) := by
  simp [Lock.step, Backoff.Do, atomic_load, kUnlocked]

theorem lock_step_cas (b : Backoff) (sp : Bool) (w : Nat) :
    Lock.step (.cas b) sp w = if w = 0 ∧ sp = false then (1, .done) else (w, .spin b) := by
  simp only [Lock.step, atomic_compare_exchange_weak, kUnlocked, kWriteLock]
  split <;> simp

theorem readLock_step_start (w : Nat) :
    ReadLock.step .start w =
      ((w + 2) % 2 ^ 64, if w % 2 = 0 then .done else .spin Backoff.new) := by
  simp only [ReadLock.step, atomic_fetch_add, kReadLock, kWriteLock, uptrSize,
    Nat.and_one_is_mod]
  split <;> simp

theorem readLock_step_spin (b : Backoff) (w : Nat) :
    ReadLock.step (.spin b) w = (w, if w % 2 = 0 then .done else .spin b.Do.1) := by
  simp only [ReadLock.step, Backoff.Do, atomic_load, kWriteLock, Nat.and_one_is_mod, if_true]
  split <;> simp

theorem Unlock_eq (w : Nat) :
    Unlock w = ((w + (2 ^ 64 - 1)) % 2 ^ 64, decide (w % 2 ≠ 0)) := by
  simp [Unlock, atomic_fetch_sub, kWriteLock, uptrSize]

theorem ReadUnlock_eq (w : Nat) (hw : w < 2 ^ 64) :
    ReadUnlock w = ((w + (2 ^ 64 - 2)) % 2 ^ 64, decide (w % 2 = 0) && decide (2 ≤ w)) := by
  simp only [ReadUnlock, atomic_fetch_sub, kWriteLock, kReadLock, uptrSize,
    Nat.and_one_is_mod, land_not_one w hw]
  congr 2
  apply decide_eq_decide.mpr
  omega

theorem countP_set_add (l : List Pc) (t : Nat) (pc pc' : Pc) (h : l[t]? = some pc)
    (p : Pc → Bool) :
    (l.set t pc').countP p + (if p pc then 1 else 0) =
      l.countP p + (if p pc' then 1 else 0) := by
  obtain ⟨ht, e⟩ := List.getElem?_eq_some.mp h
  rw [List.countP_set p l t pc' ht, e]
  have := List.boole_getElem_le_countP p l t ht
  rw [e] at this
  omega

theorem writers_add_counted_le (l : List Pc) :
    l.countP Pc.isWriter + l.countP Pc.isCounted ≤ l.length := by
  induction l with
  | nil => simp
  | cons a l ih =>
    simp only [List.countP_cons, List.length_cons]
    rcases a with _ | p | p | _ <;> (try cases p) <;>
      simp [Pc.isWriter, Pc.isCounted] <;> omega

theorem readers_le_counted (l : List Pc) : l.countP Pc.isReader ≤ l.countP Pc.isCounted := by
  induction l with
  | nil => simp
  | cons a l ih =>
    simp only [List.countP_cons]
    rcases a with _ | p | p | _ <;> (try cases p) <;>
      simp [Pc.isReader, Pc.isCounted] <;> omega

/-- Counting facts about the thread that is about to step. -/
theorem Sys.counts_at {s : Sys} {t : Nat} {pc : Pc} (hpc : s.threads[t]? = some pc) :
    (if pc.isWriter then 1 else 0) ≤ s.writers ∧
    (if pc.isCounted then 1 else 0) ≤ s.counted ∧
    (if pc.isReader then 1 else 0) ≤ s.readers ∧
    s.readers ≤ s.counted ∧
    s.writers + s.counted + 1 ≤
      s.threads.length + (if pc.isWriter then 1 else 0) + (if pc.isCounted then 1 else 0) := by
  obtain ⟨ht, e⟩ := List.getElem?_eq_some.mp hpc
  have h1 := List.boole_getElem_le_countP Pc.isWriter s.threads t ht
  have h2 := List.boole_getElem_le_countP Pc.isCounted s.threads t ht
  have h3 := List.boole_getElem_le_countP Pc.isReader s.threads t ht
  rw [e] at h1 h2 h3
  have h4 := readers_le_counted s.threads
  have h5 := writers_add_counted_le (s.threads.set t (.inReadLock .done))
  have h6 := countP_set_add s.threads t pc (.inReadLock .done) hpc Pc.isWriter
  have h7 := countP_set_add s.threads t pc (.inReadLock .done) hpc Pc.isCounted
  have e1 : Pc.isWriter (.inReadLock .done) = false := rfl
  have e2 : Pc.isCounted (.inReadLock .done) = true := rfl
  rw [e1] at h6
  rw [e2] at h7
  rw [List.length_set] at h5
  simp only [Bool.false_eq_true, if_false, if_true] at h6 h7
  simp only [Sys.writers, Sys.counted, Sys.readers]
  refine ⟨h1, h2, h3, h4, ?_⟩
  omega

/-- Replacing the stepping thread's position and the state word keeps the invariant, provided
the word changes in step with the thread's contribution to it, a thread becomes a writer only
from the unlocked word, and becomes a reader only when the write bit is clear. -/
theorem Sys.Inv.set {n : Nat} {s : Sys} {t : Nat} {pc : Pc} (hinv : s.Inv n)
    (hpc : s.threads[t]? = some pc) (w' : Nat) (pc' : Pc) (hne : pc' ≠ .fault)
    (hword : w' + (if pc.isWriter then 1 else 0) + 2 * (if pc.isCounted then 1 else 0) =
      s.state_ + (if pc'.isWriter then 1 else 0) + 2 * (if pc'.isCounted then 1 else 0))
    (hwr : pc'.isWriter = true → pc.isWriter = true ∨ s.state_ = 0)
    (hrd : pc'.isReader = true → pc.isReader = true ∨ s.state_ % 2 = 0) :
    Sys.Inv n { state_ := w', threads := s.threads.set t pc' } := by
  obtain ⟨hlen, hw, hw1, hex, hnf⟩ := hinv
  obtain ⟨c1, c2, c3, c4, _⟩ := Sys.counts_at hpc
  have hW := countP_set_add s.threads t pc pc' hpc Pc.isWriter
  have hC := countP_set_add s.threads t pc pc' hpc Pc.isCounted
  have hR := countP_set_add s.threads t pc pc' hpc Pc.isReader
  have hdis : pc'.isWriter = true → pc'.isReader = false := by
    intro h
    rcases pc' with _ | p | p | _ <;> (try cases p) <;> simp_all [Pc.isWriter, Pc.isReader]
  have hmem : Pc.fault ∉ s.threads.set t pc' := by
    intro hmem
    rcases List.mem_or_eq_of_mem_set hmem with h | h
    · exact hnf h
    · exact hne h.symm
  have hlen' : ({ state_ := w', threads := s.threads.set t pc' } : Sys).threads.length = n := by
    simpa using hlen
  simp only [Sys.writers, Sys.counted, Sys.readers] at hw hw1 hex c1 c2 c3 c4
  generalize hW'd : List.countP Pc.isWriter (s.threads.set t pc') = W' at hW
  generalize hC'd : List.countP Pc.isCounted (s.threads.set t pc') = C' at hC
  generalize hR'd : List.countP Pc.isReader (s.threads.set t pc') = R' at hR
  generalize List.countP Pc.isWriter s.threads = W at hW hw hw1 hex c1
  generalize List.countP Pc.isCounted s.threads = C at hC hw c2 c4
  generalize List.countP Pc.isReader s.threads = R at hR hex c3 c4
  have key : w' = W' + 2 * C' ∧ W' ≤ 1 ∧ (W' = 0 ∨ R' = 0) := by
    clear hmem hnf hpc hlen hlen' hW'd hC'd hR'd hne
    cases h1 : pc.isWriter <;> cases h2 : pc.isCounted <;> cases h3 : pc.isReader <;>
    cases h4 : pc'.isWriter <;> cases h5 : pc'.isCounted <;> cases h6 : pc'.isReader <;>
    simp only [h1, h2, h3, h4, h5, h6, Bool.false_eq_true, if_false, if_true, false_or,
      true_or, forall_const, false_implies, true_implies] at hword hwr hrd hdis c1 c2 c3 hW hC hR <;>
    first
      | omega
      | exact absurd hdis (by decide)
  refine ⟨hlen', ?_, ?_, ?_, hmem⟩
  · simp only [Sys.writers, Sys.counted, hW'd, hC'd]
    exact key.1
  · simp only [Sys.writers, hW'd]
    exact key.2.1
  · simp only [Sys.writers, Sys.readers, hW'd, hR'd]
    exact key.2.2

/-- Every step keeps the invariant, for fewer than `2^63` threads. -/
theorem Sys.Inv.step {n : Nat} {s s' : Sys} {t : Nat} {c : Choice} (hn : n < 2 ^ 63)
    (hinv : s.Inv n) (h : s.step t c = some s') : s'.Inv n := by
  unfold Sys.step at h
  cases hpc : s.threads[t]? with
  | none => simp [hpc] at h
  | some pc =>
    simp only [hpc] at h
    have hs' := (Option.some.inj h).symm
    subst hs'
    obtain ⟨c1, c2, c3, c4, c5⟩ := Sys.counts_at hpc
    have hlen := hinv.length_eq
    have hw := hinv.word_eq
    have hw1 := hinv.writers_le
    have hex := hinv.excl
    have hle := writers_add_counted_le s.threads
    have hmem : pc ∈ s.threads := List.getElem?_mem hpc
    simp only [Sys.writers, Sys.counted, Sys.readers] at c1 c2 c3 c4 c5 hw hw1 hex
    have hwlt : s.state_ < 2 ^ 64 := by omega
    -- the two ways of entering a method
    have enterLock : ∀ (p : Pc), p.isWriter = false → p.isCounted = false → p.isReader = false →
        s.threads[t]? = some p →
        Sys.Inv n { state_ := (Lock.step .start c.spurious s.state_).1,
                    threads := s.threads.set t (.inLock (Lock.step .start c.spurious s.state_).2) } := by
      intro p p1 p2 p3 hp
      rw [lock_step_start]
      by_cases h0 : s.state_ = 0
      · simp only [h0, if_true]
        exact Sys.Inv.set hinv hp _ _ (by simp) (by rw [p1, p2]; simp [Pc.isWriter, Pc.isCounted, h0])
          (by intro _; exact Or.inr h0) (by simp [Pc.isReader])
      · simp only [h0, if_false]
        exact Sys.Inv.set hinv hp _ _ (by simp) (by rw [p1, p2]; simp [Pc.isWriter, Pc.isCounted])
          (by simp [Pc.isWriter]) (by simp [Pc.isReader])
    have enterRead : ∀ (p : Pc), p.isWriter = false → p.isCounted = false → p.isReader = false →
        s.threads[t]? = some p →
        Sys.Inv n { state_ := (ReadLock.step .start s.state_).1,
                    threads := s.threads.set t (.inReadLock (ReadLock.step .start s.state_).2) } := by
      intro p p1 p2 p3 hp
      obtain ⟨_, _, _, _, d5⟩ := Sys.counts_at hp
      simp only [Sys.writers, Sys.counted, p1, p2, Bool.false_eq_true, if_false] at d5
      rw [readLock_step_start]
      have hadd : (s.state_ + 2) % 2 ^ 64 = s.state_ + 2 := Nat.mod_eq_of_lt (by omega)
      by_cases h0 : s.state_ % 2 = 0
      · simp only [h0, if_true]
        exact Sys.Inv.set hinv hp _ _ (by simp)
          (by rw [p1, p2, hadd]; simp [Pc.isWriter, Pc.isCounted])
          (by simp [Pc.isWriter]) (by intro _; exact Or.inr h0)
      · simp only [h0, if_false]
        exact Sys.Inv.set hinv hp _ _ (by simp)
          (by rw [p1, p2, hadd]; simp [Pc.isWriter, Pc.isCounted])
          (by simp [Pc.isWriter]) (by simp [Pc.isReader])
    rcases pc with _ | lp | rp | _
    · -- idle
      cases hcall : c.call with
      | lock =>
        simp only [threadStep, hcall]
        exact enterLock .idle rfl rfl rfl hpc
      | readLock =>
        simp only [threadStep, hcall]
        exact enterRead .idle rfl rfl rfl hpc
    · -- inside `Lock`, or holding the write lock
      rcases lp with _ | b | b | _
      · simp only [threadStep]
        exact enterLock (.inLock .start) rfl rfl rfl hpc
      · simp only [threadStep, lock_step_spin]
        by_cases h0 : s.state_ = 0
        · simp only [h0, if_true]
          exact Sys.Inv.set hinv hpc _ _ (by simp) (by simp [Pc.isWriter, Pc.isCounted, h0])
            (by simp [Pc.isWriter]) (by simp [Pc.isReader])
        · simp only [h0, if_false]
          exact Sys.Inv.set hinv hpc _ _ (by simp) (by simp [Pc.isWriter, Pc.isCounted])
            (by simp [Pc.isWriter]) (by simp [Pc.isReader])
      · simp only [threadStep, lock_step_cas]
        by_cases h0 : s.state_ = 0 ∧ c.spurious = false
        · simp only [h0, and_self, if_true]
          exact Sys.Inv.set hinv hpc _ _ (by simp) (by simp [Pc.isWriter, Pc.isCounted, h0.1])
            (by intro _; exact Or.inr h0.1) (by simp [Pc.isReader])
        · simp only [h0, if_false]
          exact Sys.Inv.set hinv hpc _ _ (by simp) (by simp [Pc.isWriter, Pc.isCounted])
            (by simp [Pc.isWriter]) (by simp [Pc.isReader])
      · simp only [threadStep, Unlock_eq]
        simp only [Pc.isWriter, if_true] at c1
        have hodd : s.state_ % 2 ≠ 0 := by omega
        have hsub : (s.state_ + (2 ^ 64 - 1)) % 2 ^ 64 = s.state_ - 1 := by omega
        simp only [hodd, ne_eq, not_false_eq_true, decide_True, if_true, hsub]
        exact Sys.Inv.set hinv hpc _ _ (by simp)
          (by simp only [Pc.isWriter, Pc.isCounted, Bool.false_eq_true, if_true, if_false]; omega)
          (by simp [Pc.isWriter]) (by simp [Pc.isReader])
    · -- inside `ReadLock`, or holding the read lock
      rcases rp with _ | b | _
      · simp only [threadStep]
        exact enterRead (.inReadLock .start) rfl rfl rfl hpc
      · simp only [threadStep, readLock_step_spin]
        by_cases h0 : s.state_ % 2 = 0
        · simp only [h0, if_true]
          exact Sys.Inv.set hinv hpc _ _ (by simp) (by simp [Pc.isWriter, Pc.isCounted])
            (by simp [Pc.isWriter]) (by intro _; exact Or.inr h0)
        · simp only [h0, if_false]
          exact Sys.Inv.set hinv hpc _ _ (by simp) (by simp [Pc.isWriter, Pc.isCounted])
            (by simp [Pc.isWriter]) (by simp [Pc.isReader])
      · simp only [threadStep, ReadUnlock_eq _ hwlt]
        simp only [Pc.isReader, Pc.isCounted, if_true] at c2 c3
        have hW0 : List.countP Pc.isWriter s.threads = 0 := by omega
        have heven : s.state_ % 2 = 0 := by omega
        have hge : 2 ≤ s.state_ := by omega
        have hsub : (s.state_ + (2 ^ 64 - 2)) % 2 ^ 64 = s.state_ - 2 := by omega
        simp only [heven, hge, decide_True, Bool.and_self, if_true, hsub]
        exact Sys.Inv.set hinv hpc _ _ (by simp)
          (by simp only [Pc.isWriter, Pc.isCounted, Bool.false_eq_true, if_true, if_false]; omega)
          (by simp [Pc.isWriter]) (by simp [Pc.isReader])
    · exact absurd hmem hinv.no_fault

theorem Sys.Inv.init (n : Nat) : (Sys.init n).Inv n := by
  refine ⟨by simp [Sys.init], ?_, ?_, ?_, ?_⟩
  · simp [Sys.init, Sys.writers, Sys.counted, kUnlocked, List.countP_replicate, Pc.isWriter,
      Pc.isCounted]
  · simp [Sys.init, Sys.writers, List.countP_replicate, Pc.isWriter]
  · left
    simp [Sys.init, Sys.writers, List.countP_replicate, Pc.isWriter]
  · simp [Sys.init, List.mem_replicate]

theorem Sys.Inv.run {n : Nat} (hn : n < 2 ^ 63) (sched : List (Nat × Choice)) :
    ∀ {s s' : Sys}, s.Inv n → s.run sched = some s' → s'.Inv n := by
  induction sched with
  | nil =>
    intro s s' hinv h
    have := Option.some.inj h
    subst this
    exact hinv
  | cons a sched ih =>
    intro s s' hinv h
    obtain ⟨t, c⟩ := a
    simp only [Sys.run] at h
    cases hstep : s.step t c with
    | none => rw [hstep] at h; exact absurd h (by simp)
    | some s1 =>
      rw [hstep] at h
      exact ih (Sys.Inv.step hn hinv hstep) h

end Mutex

/-- C8, refuted as stated: with two threads, after thread 0 has taken the write lock and
thread 1 has executed the `atomic_fetch_add` of `ReadLock`, the state word is 3, which is
neither `kUnlocked`, nor `kWriteLock`, nor twice a number of readers. -/
theorem Mutex_state_word_three :
    (Mutex.Sys.init 2).run [(0, ⟨.lock, false⟩), (1, ⟨.readLock, false⟩)] =
      some ⟨3, [.inLock .done, .inReadLock (.spin Backoff.new)]⟩ ∧
    3 ≠ kUnlocked ∧ 3 ≠ kWriteLock ∧ ¬ ∃ n, 3 = 2 * n := by
  refine ⟨by decide, by decide, by decide, ?_⟩
  rintro ⟨n, hn⟩
  omega

/-- C8, amended: in every state reachable from a freshly constructed mutex used by fewer than
`2^63` threads, with `c` the number of threads that have executed the `atomic_fetch_add` of
`ReadLock` and not yet `ReadUnlock` (holding the read lock or still waiting inside `ReadLock`),
either no thread holds the write lock and the state word is `2 * c`, or exactly one thread
holds it, no thread holds the read lock, and the state word is `1 + 2 * c`. -/
theorem Mutex_state_word (n : Nat) (hn : n < 2 ^ 63) (sched : List (Nat × Mutex.Choice))
    (s : Mutex.Sys) (hrun : (Mutex.Sys.init n).run sched = some s) :
    (s.writers = 0 ∧ s.state_ = kReadLock * s.counted) ∨
      (s.writers = 1 ∧ s.readers = 0 ∧ s.state_ = kWriteLock + kReadLock * s.counted) := by
  obtain ⟨_, hw, hw1, hex, _⟩ := Mutex.Sys.Inv.run hn sched (Mutex.Sys.Inv.init n) hrun
  simp only [kReadLock, kWriteLock]
  omega

theorem Mutex_state_word_witness :
    2 < 2 ^ 63 ∧
    (Mutex.Sys.init 2).run [(0, ⟨.readLock, false⟩), (1, ⟨.lock, false⟩), (0, ⟨.lock, false⟩)] =
      some ⟨0, [.idle, .inLock (.spin Backoff.new)]⟩ ∧
    ((Mutex.Sys.mk 0 [.idle, .inLock (.spin Backoff.new)]).writers = 0 ∧
        (Mutex.Sys.mk 0 [.idle, .inLock (.spin Backoff.new)]).state_ =
          kReadLock * (Mutex.Sys.mk 0 [.idle, .inLock (.spin Backoff.new)]).counted ∨
      (Mutex.Sys.mk 0 [.idle, .inLock (.spin Backoff.new)]).writers = 1 ∧
        (Mutex.Sys.mk 0 [.idle, .inLock (.spin Backoff.new)]).readers = 0 ∧
        (Mutex.Sys.mk 0 [.idle, .inLock (.spin Backoff.new)]).state_ =
          kWriteLock + kReadLock * (Mutex.Sys.mk 0 [.idle, .inLock (.spin Backoff.new)]).counted) :=
  ⟨by decide, by decide,
   Mutex_state_word 2 (by decide)
     [(0, ⟨.readLock, false⟩), (1, ⟨.lock, false⟩), (0, ⟨.lock, false⟩)] _ (by decide)⟩

/-- C9: a step of `Mutex::Lock` that has not yet returned either leaves the state word as it
is or swaps it from `kUnlocked` to `kWriteLock`; the call returns exactly at a step that makes
this swap; a step that finds the word non-zero changes nothing and does not return; the swap
is made by the compare-and-swap steps only (the strong one whenever the word is `kUnlocked`,
the weak one whenever it is `kUnlocked` and it does not fail spuriously), never by the load. -/
theorem Mutex_Lock_step_spec (pc : Mutex.LockPc) (spurious : Bool) (state_ : Nat)
    (hpc : pc ≠ .done) :
    ((Mutex.Lock.step pc spurious state_).1 = state_ ∨
        (state_ = kUnlocked ∧ (Mutex.Lock.step pc spurious state_).1 = kWriteLock)) ∧
      ((Mutex.Lock.step pc spurious state_).2 = .done ↔
        (state_ = kUnlocked ∧ (Mutex.Lock.step pc spurious state_).1 = kWriteLock)) ∧
      (state_ ≠ kUnlocked →
        (Mutex.Lock.step pc spurious state_).1 = state_ ∧
        (Mutex.Lock.step pc spurious state_).2 ≠ .done) ∧
      (pc = .start → state_ = kUnlocked →
        Mutex.Lock.step pc spurious state_ = (kWriteLock, .done)) ∧
      (∀ b, pc = .cas b → state_ = kUnlocked → spurious = false →
        Mutex.Lock.step pc spurious state_ = (kWriteLock, .done)) ∧
      (∀ b, pc = .spin b → (Mutex.Lock.step pc spurious state_).1 = state_ ∧
        (Mutex.Lock.step pc spurious state_).2 ≠ .done) := by
  rcases pc with _ | b | b | _
  · rw [Mutex.lock_step_start]
    by_cases h0 : state_ = 0 <;> simp [h0, kUnlocked, kWriteLock]
  · rw [Mutex.lock_step_spin]
    by_cases h0 : state_ = 0 <;> simp [h0, kUnlocked, kWriteLock]
  · rw [Mutex.lock_step_cas]
    by_cases h0 : state_ = 0 <;> cases spurious <;> simp [h0, kUnlocked, kWriteLock]
  · exact absurd rfl hpc

theorem Mutex_Lock_step_spec_witness :
    Mutex.LockPc.cas Backoff.new ≠ .done ∧
    Mutex.Lock.step (.cas Backoff.new) false 0 = (1, .done) ∧
    Mutex.Lock.step (.cas Backoff.new) true 0 = (0, .spin Backoff.new) ∧
    ((Mutex.Lock.step (.cas Backoff.new) false 0).2 = .done ↔
      ((0 : Nat) = kUnlocked ∧ (Mutex.Lock.step (.cas Backoff.new) false 0).1 = kWriteLock)) :=
  ⟨by decide, by decide, by decide,
   (Mutex_Lock_step_spec (.cas Backoff.new) false 0 (by decide)).2.1⟩

/-- C10: for every pre-state, the first step of `Mutex::ReadLock` adds `kReadLock` to the state
word (in `uptr` arithmetic) and returns at once exactly when the previous value had the write
bit clear; otherwise the call waits, and every later step leaves the state word as it is and
returns exactly when the value it loads has the write bit clear.  No step leads back to the
first one, so the addition happens exactly once. -/
theorem Mutex_ReadLock_step_spec (state_ : Nat) :
    (Mutex.ReadLock.step .start state_).1 = (state_ + kReadLock) % uptrSize ∧
      ((Mutex.ReadLock.step .start state_).2 = .done ↔ state_ &&& kWriteLock = 0) ∧
      (state_ &&& kWriteLock ≠ 0 →
        (Mutex.ReadLock.step .start state_).2 = .spin Backoff.new) ∧
      (∀ b, (Mutex.ReadLock.step (.spin b) state_).1 = state_ ∧
        ((Mutex.ReadLock.step (.spin b) state_).2 = .done ↔ state_ &&& kWriteLock = 0) ∧
        (state_ &&& kWriteLock ≠ 0 →
          (Mutex.ReadLock.step (.spin b) state_).2 = .spin b.Do.1)) ∧
      (∀ pc, (Mutex.ReadLock.step pc state_).2 ≠ .start) := by
  refine ⟨?_, ?_, ?_, ?_, ?_⟩
  · rw [Mutex.readLock_step_start]; rfl
  · rw [Mutex.readLock_step_start, kWriteLock, Nat.and_one_is_mod]
    by_cases h0 : state_ % 2 = 0 <;> simp [h0]
  · rw [Mutex.readLock_step_start, kWriteLock, Nat.and_one_is_mod]
    intro h0
    simp [h0]
  · intro b
    rw [Mutex.readLock_step_spin, kWriteLock, Nat.and_one_is_mod]
    by_cases h0 : state_ % 2 = 0 <;> simp [h0]
  · intro pc
    rcases pc with _ | b | _
    · rw [Mutex.readLock_step_start]
      by_cases h0 : state_ % 2 = 0 <;> simp [h0]
    · rw [Mutex.readLock_step_spin]
      by_cases h0 : state_ % 2 = 0 <;> simp [h0]
    · simp [Mutex.ReadLock.step]

/-- C11: on every `uptr` state word, `Mutex::Unlock` subtracts `kWriteLock` (in `uptr`
arithmetic), and its `DCHECK_NE(prev & kWriteLock, 0)` passes exactly when the write bit was
set in the previous value; when it passes, the new word is the previous one minus one, its
write bit is clear, and the reader count (word / 2) is unchanged. -/
theorem Mutex_Unlock_spec (state_ : Nat) (h : state_ < uptrSize) :
    (Mutex.Unlock state_).1 = (state_ + (uptrSize - kWriteLock)) % uptrSize ∧
      ((Mutex.Unlock state_).2 = true ↔ state_ &&& kWriteLock ≠ 0) ∧
      ((Mutex.Unlock state_).2 = true →
        (Mutex.Unlock state_).1 + kWriteLock = state_ ∧
        (Mutex.Unlock state_).1 &&& kWriteLock = 0 ∧
        (Mutex.Unlock state_).1 / 2 = state_ / 2) := by
  rw [Mutex.Unlock_eq]
  simp only [uptrSize, kWriteLock, Nat.and_one_is_mod, decide_eq_true_eq] at h ⊢
  refine ⟨trivial, trivial, ?_⟩
  intro hodd
  omega

theorem Mutex_Unlock_spec_witness :
    5 < uptrSize ∧
    ((Mutex.Unlock 5).1 = (5 + (uptrSize - kWriteLock)) % uptrSize ∧
      ((Mutex.Unlock 5).2 = true ↔ 5 &&& kWriteLock ≠ 0) ∧
      ((Mutex.Unlock 5).2 = true →
        (Mutex.Unlock 5).1 + kWriteLock = 5 ∧
        (Mutex.Unlock 5).1 &&& kWriteLock = 0 ∧
        (Mutex.Unlock 5).1 / 2 = 5 / 2)) :=
  ⟨by decide, Mutex_Unlock_spec 5 (by decide)⟩

/-- C12: on every `uptr` state word, `Mutex::ReadUnlock` subtracts `kReadLock` (in `uptr`
arithmetic), and its two assertions pass exactly when the previous value had the write bit
clear and a positive reader count, that is, was even and at least 2; when they pass, the new
word is the previous one minus two and the reader count (word / 2) has dropped by exactly
one. -/
theorem Mutex_ReadUnlock_spec (state_ : Nat) (h : state_ < uptrSize) :
    (Mutex.ReadUnlock state_).1 = (state_ + (uptrSize - kReadLock)) % uptrSize ∧
      ((Mutex.ReadUnlock state_).2 = true ↔ (state_ &&& kWriteLock = 0 ∧ 0 < state_ / 2)) ∧
      ((Mutex.ReadUnlock state_).2 = true ↔ (state_ % 2 = 0 ∧ 2 ≤ state_)) ∧
      ((Mutex.ReadUnlock state_).2 = true →
        (Mutex.ReadUnlock state_).1 + kReadLock = state_ ∧
        (Mutex.ReadUnlock state_).1 / 2 + 1 = state_ / 2) := by
  have h' : state_ < 2 ^ 64 := h
  rw [Mutex.ReadUnlock_eq _ h']
  simp only [uptrSize, kWriteLock, kReadLock, Nat.and_one_is_mod, Bool.and_eq_true,
    decide_eq_true_eq] at h ⊢
  refine ⟨trivial, ?_, trivial, ?_⟩
  · constructor <;> intro hh <;> omega
  · intro hh
    omega

theorem Mutex_ReadUnlock_spec_witness :
    6 < uptrSize ∧
    ((Mutex.ReadUnlock 6).1 = (6 + (uptrSize - kReadLock)) % uptrSize ∧
      ((Mutex.ReadUnlock 6).2 = true ↔ (6 &&& kWriteLock = 0 ∧ 0 < 6 / 2)) ∧
      ((Mutex.ReadUnlock 6).2 = true ↔ (6 % 2 = 0 ∧ 2 ≤ 6)) ∧
      ((Mutex.ReadUnlock 6).2 = true →
        (Mutex.ReadUnlock 6).1 + kReadLock = 6 ∧
        (Mutex.ReadUnlock 6).1 / 2 + 1 = 6 / 2)) :=
  ⟨by decide, Mutex_ReadUnlock_spec 6 (by decide)⟩

namespace Mutex

theorem scopedStep_eq (c : Choice) (state_ : Nat) (pc : Pc) :
    scopedStep c state_ pc = threadStep c state_ pc := by
  rcases pc with _ | p | p | _
  · cases hc : c.call <;> simp [scopedStep, threadStep, hc, Tsan.Lock.ctor, Tsan.ReadLock.ctor]
  · cases p <;> simp [scopedStep, threadStep, Tsan.Lock.ctor, Tsan.Lock.dtor]
  · cases p <;> simp [scopedStep, threadStep, Tsan.ReadLock.ctor, Tsan.ReadLock.dtor]
  · rfl

theorem Sys.scopedRun_eq (sched : List (Nat × Choice)) :
    ∀ s : Sys, s.scopedRun sched = s.run sched := by
  induction sched with
  | nil => intro s; rfl
  | cons a sched ih =>
    intro s
    obtain ⟨t, c⟩ := a
    have hstep : s.scopedStepAt t c = s.step t c := by
      simp only [Sys.scopedStepAt, Sys.step, scopedStep_eq]
    simp only [Sys.scopedRun, Sys.run, hstep]
    cases s.step t c with
    | none => rfl
    | some s' => exact ih s'

theorem two_le_countP (l : List Pc) (p : Pc → Bool) {i j : Nat} {a b : Pc} (hij : i ≠ j)
    (hi : l[i]? = some a) (hj : l[j]? = some b) (ha : p a = true) (hb : p b = true)
    (hidle : p .idle = false) : 2 ≤ l.countP p := by
  have h1 := countP_set_add l i a .idle hi p
  rw [ha, hidle] at h1
  simp only [if_true, Bool.false_eq_true, if_false] at h1
  have hj' : (l.set i .idle)[j]? = some b := by
    rw [List.getElem?_set_ne hij]; exact hj
  obtain ⟨hlt, e⟩ := List.getElem?_eq_some.mp hj'
  have h2 := List.boole_getElem_le_countP p (l.set i .idle) j hlt
  rw [e, hb] at h2
  simp only [if_true] at h2
  omega

end Mutex

/-- C13: on a freshly constructed mutex (with room for fewer than `2^63` scoped objects at a
time), after any interleaving of constructor and destructor steps of scoped `Lock` and
`ReadLock` objects at the end of which every object that was constructed has been destroyed
and no constructor is under way, the state word is `kUnlocked`, so the check in
`Mutex::~Mutex()` passes. -/
theorem Mutex_scoped_balanced (n : Nat) (hn : n < 2 ^ 63) (sched : List (Nat × Mutex.Choice))
    (s : Mutex.Sys) (hrun : (Mutex.Sys.init n).scopedRun sched = some s)
    (hidle : ∀ pc ∈ s.threads, pc = .idle) :
    s.state_ = kUnlocked ∧ Mutex.destroy s.state_ = true := by
  rw [Mutex.Sys.scopedRun_eq] at hrun
  obtain ⟨_, hw, _, _, _⟩ := Mutex.Sys.Inv.run hn sched (Mutex.Sys.Inv.init n) hrun
  have hW : s.writers = 0 := by
    simp only [Mutex.Sys.writers, List.countP_eq_zero]
    intro pc hpc
    rw [hidle pc hpc]
    simp [Mutex.Pc.isWriter]
  have hC : s.counted = 0 := by
    simp only [Mutex.Sys.counted, List.countP_eq_zero]
    intro pc hpc
    rw [hidle pc hpc]
    simp [Mutex.Pc.isCounted]
  have h0 : s.state_ = 0 := by omega
  simp [Mutex.destroy, atomic_load, kUnlocked, h0]

theorem Mutex_scoped_balanced_witness :
    2 < 2 ^ 63 ∧
    (Mutex.Sys.init 2).scopedRun
        [(0, ⟨.readLock, false⟩), (1, ⟨.readLock, false⟩), (0, ⟨.lock, false⟩),
         (1, ⟨.lock, false⟩), (1, ⟨.lock, false⟩), (1, ⟨.lock, false⟩)] =
      some ⟨0, [.idle, .idle]⟩ ∧
    (∀ pc ∈ (Mutex.Sys.mk 0 [.idle, .idle]).threads, pc = .idle) ∧
    (Mutex.Sys.mk 0 [.idle, .idle]).state_ = kUnlocked ∧
    Mutex.destroy (Mutex.Sys.mk 0 [.idle, .idle]).state_ = true :=
  ⟨by decide, by decide, by decide,
   Mutex_scoped_balanced 2 (by decide) _ _
     (show (Mutex.Sys.init 2).scopedRun
        [(0, ⟨.readLock, false⟩), (1, ⟨.readLock, false⟩), (0, ⟨.lock, false⟩),
         (1, ⟨.lock, false⟩), (1, ⟨.lock, false⟩), (1, ⟨.lock, false⟩)] =
        some ⟨0, [.idle, .idle]⟩ by decide)
     (by decide)⟩

/-- C15: in every state reachable by the atomic steps of `Lock`, `Unlock`, `ReadLock` and
`ReadUnlock` executed by fewer than `2^63` threads (each unlocking only what it holds), no two
distinct threads have both returned from `Lock` without unlocking, and no thread has returned
from `Lock` while another has returned from `ReadLock`, both without unlocking. -/
theorem Mutex_mutual_exclusion (n : Nat) (hn : n < 2 ^ 63) (sched : List (Nat × Mutex.Choice))
    (s : Mutex.Sys) (hrun : (Mutex.Sys.init n).run sched = some s) (i j : Nat) (hij : i ≠ j) :
    ¬ (s.threads[i]? = some (.inLock .done) ∧ s.threads[j]? = some (.inLock .done)) ∧
      ¬ (s.threads[i]? = some (.inLock .done) ∧ s.threads[j]? = some (.inReadLock .done)) := by
  obtain ⟨_, _, hw1, hex, _⟩ := Mutex.Sys.Inv.run hn sched (Mutex.Sys.Inv.init n) hrun
  constructor
  · rintro ⟨hi, hj⟩
    have := Mutex.two_le_countP s.threads Mutex.Pc.isWriter hij hi hj rfl rfl rfl
    simp only [Mutex.Sys.writers] at hw1
    omega
  · rintro ⟨hi, hj⟩
    obtain ⟨c1, _, _, _, _⟩ := Mutex.Sys.counts_at hi
    obtain ⟨_, _, c3, _, _⟩ := Mutex.Sys.counts_at hj
    have e1 : Mutex.Pc.isWriter (.inLock .done) = true := rfl
    have e2 : Mutex.Pc.isReader (.inReadLock .done) = true := rfl
    rw [e1] at c1
    rw [e2] at c3
    simp only [if_true] at c1 c3
    omega

theorem Mutex_mutual_exclusion_witness :
    2 < 2 ^ 63 ∧
    (Mutex.Sys.init 2).run [(0, ⟨.lock, false⟩), (1, ⟨.lock, false⟩), (1, ⟨.lock, false⟩)] =
      some ⟨1, [.inLock .done, .inLock (.spin (Backoff.new.Do).1)]⟩ ∧
    (0 : Nat) ≠ 1 ∧
    ¬ ((Mutex.Sys.mk 1 [.inLock .done, .inLock (.spin (Backoff.new.Do).1)]).threads[0]? =
          some (.inLock .done) ∧
        (Mutex.Sys.mk 1 [.inLock .done, .inLock (.spin (Backoff.new.Do).1)]).threads[1]? =
          some (.inLock .done)) :=
  ⟨by decide, by decide, by decide,
   (Mutex_mutual_exclusion 2 (by decide)
     [(0, ⟨.lock, false⟩), (1, ⟨.lock, false⟩), (1, ⟨.lock, false⟩)] _ (by decide) 0 1
     (by decide)).1⟩

/-! ## `Backoff` -/

theorem Backoff.wrapInt_succ (x : Int) :
    Backoff.wrapInt (Backoff.wrapInt x + 1) = Backoff.wrapInt (x + 1) := by
  simp only [Backoff.wrapInt]
  omega

theorem Backoff.after_iter (k : Nat) :
    ∀ b : Backoff, (Backoff.after k b).iter_ =
      if k = 0 then b.iter_ else Backoff.wrapInt (b.iter_ + k) := by
  induction k with
  | zero => intro b; rfl
  | succ k ih =>
    intro b
    rw [Backoff.after, ih]
    simp only [Backoff.Do, Nat.succ_ne_zero, if_false]
    by_cases hk : k = 0
    · subst hk
      simp
    · simp only [hk, if_false, Backoff.wrapInt, Nat.cast_add, Nat.cast_one]
      omega

/-- C17, refuted as stated: the increment of the `2^31`-th call of `Do` on a fresh `Backoff`
takes `iter_` past the largest `int`; with the wrap-around result the next call, number
`2^31 + 1`, performs the active spin `proc_yield(20)` instead of `sched_yield()`. -/
theorem Backoff_spins_again :
    ((Backoff.after (2 ^ 31) Backoff.new).Do).2.1 = .procYield 20 ∧ ¬ (2 ^ 31 + 1 ≤ 10) := by
  have h := Backoff.after_iter (2 ^ 31) Backoff.new
  have h' : (Backoff.after (2 ^ 31) Backoff.new).iter_ = -2 ^ 31 := by
    rw [h]
    decide
  refine ⟨?_, by decide⟩
  simp only [Backoff.Do, h']
  decide

/-- C17, amended: for a freshly constructed `Backoff` and every `k` from 1 up to `2^31 - 1`,
the `k`-th call of `Do` performs `proc_yield(kActiveSpinCnt)`, with `kActiveSpinCnt = 20`,
when `k <= 10` and `sched_yield()` when `k > 10`, and returns `true`. -/
theorem Backoff_Do_schedule (k : Nat) (h1 : 1 ≤ k) (h2 : k < 2 ^ 31) :
    ((Backoff.after (k - 1) Backoff.new).Do).2.1 =
        (if k ≤ 10 then .procYield Backoff.kActiveSpinCnt else .schedYield) ∧
      Backoff.kActiveSpinCnt = 20 ∧
      ((Backoff.after (k - 1) Backoff.new).Do).2.2 = true := by
  have h := Backoff.after_iter (k - 1) Backoff.new
  have hit : (Backoff.after (k - 1) Backoff.new).iter_ = ((k - 1 : Nat) : Int) := by
    rw [h]
    by_cases hk : k - 1 = 0
    · simp [hk, Backoff.new]
    · simp only [hk, if_false, Backoff.new, Backoff.wrapInt]
      omega
  refine ⟨?_, rfl, rfl⟩
  simp only [Backoff.Do, hit, Backoff.kActiveSpinIters]
  by_cases hk : k ≤ 10
  · have : ((k - 1 : Nat) : Int) < 10 := by omega
    simp [hk, this]
  · have : ¬ ((k - 1 : Nat) : Int) < 10 := by omega
    simp [hk, this]

theorem Backoff_Do_schedule_witness :
    1 ≤ 11 ∧ 11 < 2 ^ 31 ∧
    (((Backoff.after (11 - 1) Backoff.new).Do).2.1 =
        (if 11 ≤ 10 then .procYield Backoff.kActiveSpinCnt else .schedYield) ∧
      Backoff.kActiveSpinCnt = 20 ∧
      ((Backoff.after (11 - 1) Backoff.new).Do).2.2 = true) :=
  ⟨by decide, by decide, Backoff_Do_schedule 11 (by decide) (by decide)⟩

/-! ## User memory -/

theorem land_not_mask (x k : Nat) (hx : x < 2 ^ 64) (hk : k ≤ 64) :
    x &&& (2 ^ 64 - 1 - (2 ^ k - 1)) = x - x % 2 ^ k := by
  have hpos : 0 < 2 ^ k := Nat.two_pow_pos k
  have hle : 2 ^ k ≤ 2 ^ 64 := Nat.pow_le_pow_right (by decide) hk
  have hmask : 2 ^ 64 - 1 - (2 ^ k - 1) = 2 ^ 64 - ((2 ^ k - 1) + 1) := by omega
  have hrhs : x - x % 2 ^ k = 2 ^ k * (x / 2 ^ k) := by
    have := Nat.div_add_mod x (2 ^ k)
    omega
  rw [hmask, hrhs]
  apply Nat.eq_of_testBit_eq
  intro i
  rw [Nat.testBit_and, Nat.testBit_two_pow_sub_succ (by omega), Nat.testBit_two_pow_sub_one,
    Nat.testBit_mul_pow_two, ← Nat.shiftRight_eq_div_pow, Nat.testBit_shiftRight]
  by_cases hik : i < k
  · have : ¬ i ≥ k := by omega
    simp [hik, this]
  · have hge : i ≥ k := by omega
    have e : k + (i - k) = i := by omega
    rw [e]
    by_cases hi : i < 64
    · simp [hik, hge, hi]
    · have hxi : x.testBit i = false := by
        apply Nat.testBit_lt_two_pow
        calc x < 2 ^ 64 := hx
          _ ≤ 2 ^ i := Nat.pow_le_pow_right (by decide) (by omega)
      simp [hxi]

theorem user_alloc_in_rtl {env : MmanEnv} {thr : ThreadState} {pc sz a : Nat}
    {fill : Nat → Nat} {mem : Mem} {r : Nat × Mem}
    (h : user_alloc env thr pc sz a fill mem = .ok r) :
    0 < thr.in_rtl ∧ r.1 = a + env.sizeofMBlock := by
  by_cases hr : 0 < thr.in_rtl
  · refine ⟨hr, ?_⟩
    by_cases hn : (sz + env.sizeofMBlock) % uptrSize < env.sizeofMBlock
    · simp [user_alloc, hr, hn] at h
    · simp only [user_alloc, gt_iff_lt, hr, not_true, if_false, hn] at h
      have := Except.ok.inj h
      rw [← this]
  · simp [user_alloc, hr] at h

/-- C19: for every size `sz` and every `align` that is a power of two, if `user_alloc(sz + align)`
returns the address `p` and `p + sz + align` does not overflow, then `user_alloc_aligned`
returns an address `pa` with `pa mod align = 0`, `p <= pa < p + align` and
`pa + sz <= p + sz + align`: the aligned region lies inside the allocated block and the
`DCHECK_LE` passes. -/
theorem user_alloc_aligned_spec (env : MmanEnv) (thr : ThreadState) (pc sz align a : Nat)
    (fill : Nat → Nat) (mem : Mem) (k : Nat) (halign : align = 2 ^ k) (p : Nat) (mem1 : Mem)
    (halloc : user_alloc env thr pc ((sz + align) % uptrSize) a fill mem = .ok (p, mem1))
    (hno : p + sz + align < uptrSize) :
    ∃ pa, user_alloc_aligned env thr pc sz align a fill mem = .ok (pa, mem1) ∧
      pa % align = 0 ∧ p ≤ pa ∧ pa < p + align ∧ pa + sz ≤ p + sz + align := by
  have hrtl := (user_alloc_in_rtl halloc).1
  have hpos : 0 < align := by rw [halign]; exact Nat.two_pow_pos k
  have hk : k ≤ 64 := by
    by_contra hcon
    have : 2 ^ 64 < 2 ^ k := Nat.pow_lt_pow_right (by decide) (by omega)
    simp only [uptrSize] at hno
    omega
  simp only [uptrSize] at hno halloc
  have e1 : (p + align + (2 ^ 64 - 1)) % 2 ^ 64 = p + align - 1 := by omega
  have e2 : (align + (2 ^ 64 - 1)) % 2 ^ 64 = align - 1 := by omega
  have hmask := land_not_mask (p + align - 1) k (by omega) hk
  rw [← halign] at hmask
  have hmod : (p + align - 1) % align < align := Nat.mod_lt _ hpos
  have hmodle : (p + align - 1) % align ≤ p + align - 1 := Nat.mod_le _ _
  have hdiv := Nat.div_add_mod (p + align - 1) align
  refine ⟨p + align - 1 - (p + align - 1) % align, ?_, ?_, by omega, by omega, by omega⟩
  · simp only [user_alloc_aligned, gt_iff_lt, hrtl, not_true, if_false, uptrSize, halloc, e1,
      e2, hmask]
    rw [if_neg]
    rw [not_not,
      Nat.mod_eq_of_lt (show p + align - 1 - (p + align - 1) % align + sz < 2 ^ 64 by omega),
      Nat.mod_eq_of_lt (show p + sz + align < 2 ^ 64 by omega)]
    omega
  · have e : p + align - 1 - (p + align - 1) % align = align * ((p + align - 1) / align) := by
      omega
    rw [e]
    exact Nat.mul_mod_right _ _

theorem user_alloc_aligned_spec_witness :
    (16 : Nat) = 2 ^ 4 ∧
    user_alloc ⟨8, false⟩ ⟨1, 0⟩ 0 ((100 + 16) % uptrSize) 4099 (fun _ => 0) ⟨fun _ => none, []⟩ =
      .ok (4107, ⟨Function.update (fun _ => none) 4099 (some ⟨116, fun _ => 0⟩), []⟩) ∧
    4107 + 100 + 16 < uptrSize ∧
    ∃ pa, user_alloc_aligned ⟨8, false⟩ ⟨1, 0⟩ 0 100 16 4099 (fun _ => 0) ⟨fun _ => none, []⟩ =
        .ok (pa, ⟨Function.update (fun _ => none) 4099 (some ⟨116, fun _ => 0⟩), []⟩) ∧
      pa % 16 = 0 ∧ 4107 ≤ pa ∧ pa < 4107 + 16 ∧ pa + 100 ≤ 4107 + 100 + 16 :=
  ⟨by decide, by rfl, by decide,
   user_alloc_aligned_spec ⟨8, false⟩ ⟨1, 0⟩ 0 100 16 4099 (fun _ => 0) ⟨fun _ => none, []⟩ 4
     (by decide) 4107 _ (by rfl) (by decide)⟩

theorem digit_ne_NUL (d : Nat) (hd : d < 10) : Char.ofNat (48 + d) ≠ NUL := by
  interval_cases d <;> decide

theorem decimalDigits_no_NUL : ∀ (fuel n : Nat), NUL ∉ decimalDigits fuel n := by
  intro fuel
  induction fuel with
  | zero => intro n; simp [decimalDigits]
  | succ f ih =>
    intro n
    simp only [decimalDigits]
    split
    · rename_i h
      simp only [List.mem_singleton]
      exact fun e => digit_ne_NUL n h e.symm
    · simp only [List.mem_append, List.mem_singleton, not_or]
      exact ⟨ih _, fun e => digit_ne_NUL (n % 10) (Nat.mod_lt _ (by decide)) e.symm⟩

theorem decimalDigits_length (k : Nat) :
    ∀ (fuel n : Nat), n < 10 ^ (k + 1) → (decimalDigits fuel n).length ≤ k + 1 := by
  induction k with
  | zero =>
    intro fuel n hn
    cases fuel with
    | zero => simp [decimalDigits]
    | succ f =>
      have : n < 10 := by simpa using hn
      simp [decimalDigits, this]
  | succ k ih =>
    intro fuel n hn
    cases fuel with
    | zero => simp [decimalDigits]
    | succ f =>
      simp only [decimalDigits]
      split
      · simp
      · have hdiv : n / 10 < 10 ^ (k + 1) := by
          rw [Nat.div_lt_iff_lt_mul (by decide)]
          rw [Nat.pow_succ] at hn
          exact hn
        have := ih f (n / 10) hdiv
        simp only [List.length_append, List.length_singleton]
        omega

theorem formatInt_no_NUL (n : Int) : NUL ∉ formatInt n := by
  unfold formatInt
  split
  · simp only [List.mem_cons, not_or]
    exact ⟨by decide, decimalDigits_no_NUL _ _⟩
  · exact decimalDigits_no_NUL _ _

theorem formatInt_length (n : Int) (h1 : -2 ^ 31 ≤ n) (h2 : n < 2 ^ 31) :
    (formatInt n).length ≤ 11 := by
  have hn : n.natAbs < 10 ^ (9 + 1) := by omega
  have := decimalDigits_length 9 (n.natAbs + 1) n.natAbs hn
  unfold formatInt
  split
  · simp only [List.length_cons]
    omega
  · omega

theorem Report.pid_buff_eq (pid : Int) (h1 : -2 ^ 31 ≤ pid) (h2 : pid < 2 ^ 31) :
    Report.pid_buff pid = ['=', '='] ++ formatInt pid ++ ['=', '=', ' '] := by
  unfold Report.pid_buff
  apply List.take_of_length_le
  have := formatInt_length pid h1 h2
  simp only [List.length_append, List.length_cons, List.length_nil]
  omega

theorem Report.pid_buff_no_NUL (pid : Int) : NUL ∉ Report.pid_buff pid := by
  intro h
  have h' := List.mem_of_mem_take h
  simp only [List.mem_append, List.mem_cons, List.mem_singleton, List.not_mem_nil,
    or_false] at h'
  rcases h' with (h' | h') | h'
  · rcases h' with h' | h' <;> exact absurd h' (by decide)
  · exact formatInt_no_NUL pid h'
  · rcases h' with h' | h' | h' <;> exact absurd h' (by decide)

theorem Report.grow_some (ret : Int) (hret : ret < 2 ^ 30) :
    ∀ (fuel : Nat) (b : Int), 0 < b → ret < b * 2 ^ fuel →
      ∃ r, Report.grow ret (fuel + 1) b = some r := by
  intro fuel
  induction fuel with
  | zero =>
    intro b _ h
    have : ret < b := by simpa using h
    exact ⟨b, by simp [Report.grow, this]⟩
  | succ f ih =>
    intro b hb h
    by_cases h1 : ret < b
    · exact ⟨b, by simp [Report.grow, h1]⟩
    · have h2 : ¬ b * 2 > 2 ^ 31 - 1 := by omega
      obtain ⟨r, hr⟩ := ih (b * 2) (by omega) (by rw [pow_succ] at h; linarith)
      exact ⟨r, by rw [Report.grow, if_neg h1, if_neg h2]; exact hr⟩

theorem clen_eq_length {m : List Char} (hm : NUL ∉ m) : clen m = m.length := by
  unfold clen
  rw [List.takeWhile_eq_self_iff.mpr]
  intro c hc
  simp only [decide_eq_true_eq]
  exact fun e => hm (e ▸ hc)

theorem takeWhile_ne_NUL {s : List Char} (hs : NUL ∉ s) :
    (s.takeWhile fun c => decide (c ≠ NUL)) = s := by
  rw [List.takeWhile_eq_self_iff.mpr]
  intro c hc
  simp only [decide_eq_true_eq]
  exact fun e => hs (e ▸ hc)

theorem Printf_s_eq {s : List Char} (hs : NUL ∉ s) (hl : s.length < 2 ^ 31) :
    Printf_s s = some s := by
  unfold Printf_s
  rw [takeWhile_ne_NUL hs, if_pos (by omega)]

theorem Printf_s_overflow {s : List Char} (hs : NUL ∉ s) (hl : 2 ^ 31 ≤ s.length) :
    Printf_s s = none := by
  unfold Printf_s
  rw [takeWhile_ne_NUL hs, if_neg (by omega)]

theorem Report.loop_eq (p m : List Char) :
    ∀ (fuel i : Nat) (res : List Char), i ≤ m.length → m.length - i ≤ fuel →
      Report.loop p m (m.length : Int) fuel (i : Int)
          (decide (i = 0 ∨ cstr m (i - 1) = NL)) res =
        res ++ ((List.range' i (m.length - i)).map fun j =>
          (if j = 0 ∨ cstr m (j - 1) = NL then p else []) ++ [cstr m j]).flatten := by
  intro fuel
  induction fuel with
  | zero =>
    intro i res _ hf
    have e : m.length - i = 0 := by omega
    simp [Report.loop, e]
  | succ f ih =>
    intro i res hi hf
    by_cases hlt : i < m.length
    · have hlt' : (i : Int) < (m.length : Int) := by omega
      have hrange : List.range' i (m.length - i) =
          i :: List.range' (i + 1) (m.length - (i + 1)) := by
        have e : m.length - i = (m.length - (i + 1)) + 1 := by omega
        rw [e, List.range'_succ]
      have hnext := ih (i + 1) ((if decide (i = 0 ∨ cstr m (i - 1) = NL) = true then res ++ p
        else res) ++ [cstr m i]) hlt (by omega)
      have hdec : decide (i + 1 = 0 ∨ cstr m (i + 1 - 1) = NL) = decide (cstr m i = NL) := by
        simp
      rw [hdec] at hnext
      have hcast : ((i + 1 : Nat) : Int) = (i : Int) + 1 := by omega
      rw [hcast] at hnext
      rw [Report.loop, if_pos hlt']
      simp only [Int.toNat_ofNat]
      rw [hnext, hrange]
      simp only [List.map_cons, List.flatten_cons, decide_eq_true_eq]
      split <;> simp [List.append_assoc]
    · have e : m.length - i = 0 := by omega
      have hlt' : ¬ (i : Int) < (m.length : Int) := by omega
      rw [Report.loop, if_neg hlt']
      simp [e]

theorem prefixLines_no_NUL {p m : List Char} (hp : NUL ∉ p) (hm : NUL ∉ m) :
    NUL ∉ prefixLines p m := by
  unfold prefixLines
  simp only [List.mem_flatten, List.mem_map, List.mem_range, not_exists, not_and]
  rintro l ⟨i, hi, rfl⟩ hmem
  have hci : cstr m i ∈ m := by
    unfold cstr
    rw [List.getD_eq_getElem _ _ hi]
    exact List.getElem_mem _
  simp only [List.mem_append, List.mem_singleton] at hmem
  rcases hmem with h | h
  · split at h
    · exact hp h
    · simp at h
  · exact hm (h ▸ hci)

theorem Report.grow_fits (m : List Char) (hlen : m.length < 2 ^ 30) :
    ∃ r, Report.grow (m.length : Int) 32 (1024 * 16) = some r :=
  Report.grow_some (m.length : Int) (by omega) 31 (1024 * 16) (by decide)
    (by norm_num; omega)

theorem Report.loop_prefixLines (p m : List Char) :
    Report.loop p m (m.length : Int) m.length 0 true [] = prefixLines p m := by
  have hloop := Report.loop_eq p m m.length 0 [] (Nat.zero_le _) (by omega)
  have hdec : decide ((0 : Nat) = 0 ∨ cstr m (0 - 1) = NL) = true := by simp
  rw [hdec] at hloop
  simp only [Nat.cast_zero] at hloop
  rw [hloop, List.nil_append, Nat.sub_zero, ← List.range_eq_range']
  rfl

theorem Report_eq (pid : Int) (m : List Char) (r : Int)
    (hc : ((m.length : Nat) : Int) < 2 ^ 31)
    (hr : Report.grow (m.length : Int) 32 (1024 * 16) = some r) :
    Report pid m = Printf_s (Report.loop (Report.pid_buff pid) m (clen m : Int)
      m.length 0 true []) := by
  unfold Report
  rw [if_neg (not_not.mpr hc), hr]

theorem Report_of_no_NUL (pid : Int) (m : List Char) (hm : NUL ∉ m)
    (hlen : m.length < 2 ^ 30) :
    Report pid m = Printf_s (prefixLines (Report.pid_buff pid) m) := by
  obtain ⟨r, hr⟩ := Report.grow_fits m hlen
  rw [Report_eq pid m r (by omega) hr, clen_eq_length hm, Report.loop_prefixLines]

theorem cstr_replicate {c : Char} {n i : Nat} (hi : i < n) :
    cstr (List.replicate n c) i = c := by
  unfold cstr
  rw [List.getD_eq_getElem _ _ (by rw [List.length_replicate]; exact hi)]
  exact List.getElem_replicate _ _

theorem prefixLines_replicate_NL (p : List Char) (n : Nat) :
    (prefixLines p (List.replicate n NL)).length = n * (p.length + 1) := by
  have e : prefixLines p (List.replicate n NL) =
      ((List.range n).map fun _ => p ++ [NL]).flatten := by
    unfold prefixLines
    rw [List.length_replicate]
    congr 1
    apply List.map_congr_left
    intro i hi
    have hi' : i < n := List.mem_range.mp hi
    rw [cstr_replicate hi']
    by_cases h0 : i = 0
    · simp [h0]
    · have : cstr (List.replicate n NL) (i - 1) = NL := cstr_replicate (by omega)
      simp [this]
  rw [e, List.length_flatten]
  simp

theorem prefixLines_nil (p : List Char) : prefixLines p [] = [] := by
  simp [prefixLines]

/-- C14, refuted as stated, at three formatted messages.  For `2^30` characters the buffer
size, doubled from `16384`, stops at `2^30` for a message one character shorter, but here it
still does not exceed the length `vsnprintf` returns and the next `buff_size *= 2` leaves the
range of `int`.  For `2^28` newlines the message fits the buffer, but the prefixed text has
`2^28 * 10` characters, more than the `int` that `vfprintf` returns can count.  For the message
`a`, NUL, `b` (as `"%c%c%c"` formats it) `strlen` stops at the NUL and the `b` is not
printed. -/
theorem Report_huge_message :
    ((List.replicate (2 ^ 30) 'a').length = 2 ^ 30 ∧
      Report.grow (2 ^ 30 - 1) 32 (1024 * 16) = some (2 ^ 30) ∧
      Report.grow (2 ^ 30) 32 (1024 * 16) = none ∧
      Report 1234 (List.replicate (2 ^ 30) 'a') = none) ∧
    ((prefixLines (Report.pid_buff 1234) (List.replicate (2 ^ 28) NL)).length = 2 ^ 28 * 10 ∧
      Report 1234 (List.replicate (2 ^ 28) NL) = none) ∧
    Report 71 ['a', NUL, 'b'] = some ['=', '=', '7', '1', '=', '=', ' ', 'a'] := by
  have h1 : ¬ ¬ (((List.replicate (2 ^ 30) 'a').length : Nat) : Int) < 2 ^ 31 := by
    rw [List.length_replicate]; decide
  have h2 : Report.grow ((List.replicate (2 ^ 30) 'a').length : Nat) 32 (1024 * 16) = none := by
    rw [List.length_replicate]; decide
  have hp : (Report.pid_buff 1234).length = 9 := by decide
  have hn : NUL ∉ List.replicate (2 ^ 28) NL := by
    intro h
    exact absurd (List.eq_of_mem_replicate h) (by decide)
  have hl : (prefixLines (Report.pid_buff 1234) (List.replicate (2 ^ 28) NL)).length =
      2 ^ 28 * 10 := by
    rw [prefixLines_replicate_NL, hp]
  refine ⟨⟨List.length_replicate _ _, by decide, by decide, ?_⟩, ⟨hl, ?_⟩, by decide⟩
  · unfold Report
    rw [if_neg h1, h2]
  · rw [Report_of_no_NUL 1234 _ hn (by rw [List.length_replicate]; decide)]
    exact Printf_s_overflow (prefixLines_no_NUL (Report.pid_buff_no_NUL 1234) hn)
      (by rw [hl]; decide)

/-- C14, amended: for every process id (an `int`) and every formatted message `m` that
contains no NUL character, has fewer than `2^30` characters and whose prefixed text has at most
`2^31 - 1` characters, the text `Report` prints is `m` with the prefix `"==<pid>== "` inserted
before the first character of `m` and before every character that directly follows a newline,
nothing else added or removed; an empty `m` prints nothing. -/
theorem Report_spec (pid : Int) (m : List Char) (h1 : -2 ^ 31 ≤ pid) (h2 : pid < 2 ^ 31)
    (hm : NUL ∉ m) (hlen : m.length < 2 ^ 30)
    (hout : (prefixLines (['=', '='] ++ formatInt pid ++ ['=', '=', ' ']) m).length < 2 ^ 31) :
    Report pid m = some (prefixLines (['=', '='] ++ formatInt pid ++ ['=', '=', ' ']) m) ∧
      (m = [] → Report pid m = some []) := by
  have hmain : Report pid m =
      some (prefixLines (['=', '='] ++ formatInt pid ++ ['=', '=', ' ']) m) := by
    rw [← Report.pid_buff_eq pid h1 h2] at hout ⊢
    rw [Report_of_no_NUL pid m hm hlen,
      Printf_s_eq (prefixLines_no_NUL (Report.pid_buff_no_NUL pid) hm) hout]
  refine ⟨hmain, ?_⟩
  intro he
  rw [hmain, he, prefixLines_nil]

theorem Report_spec_witness :
    (-2 ^ 31 : Int) ≤ 71 ∧ (71 : Int) < 2 ^ 31 ∧ NUL ∉ ['a', NL, NL, 'b'] ∧
    ['a', NL, NL, 'b'].length < 2 ^ 30 ∧
    (prefixLines (['=', '='] ++ formatInt 71 ++ ['=', '=', ' ']) ['a', NL, NL, 'b']).length
      < 2 ^ 31 ∧
    prefixLines (['=', '='] ++ formatInt 71 ++ ['=', '=', ' ']) ['a', NL, NL, 'b'] =
      ['=', '=', '7', '1', '=', '=', ' ', 'a', NL,
       '=', '=', '7', '1', '=', '=', ' ', NL,
       '=', '=', '7', '1', '=', '=', ' ', 'b'] ∧
    Report 71 ['a', NL, NL, 'b'] =
      some (prefixLines (['=', '='] ++ formatInt 71 ++ ['=', '=', ' ']) ['a', NL, NL, 'b']) :=
  ⟨by decide, by decide, by decide, by decide, by decide, by decide,
   (Report_spec 71 ['a', NL, NL, 'b'] (by decide) (by decide) (by decide) (by decide)
     (by decide)).1⟩

end Tsan
